import Mathlib

/-!
A shallow embedding of the toy-language JIT front-end (src/jit.rs): the
AST-to-IR translator, its variable-table builder, and the function-level
assembly, together with proofs of the specified properties.

The translator is modelled as an explicit state-passing function over a
builder state that records an ordered trace of builder operations (block
creation, jumps, branches, sealing, emitted instructions, variable
declarations).  Fallible operations (`unwrap`/`expect` in the source)
are modelled with `Except String`.
-/

set_option maxHeartbeats 1000000

namespace JitDemo

/-- Integer condition codes: the subset of the backend's `IntCC` that the
comparison lowering emits (src/jit.rs lines 217-265). -/
inductive IntCC where
  | Equal
  | NotEqual
  | SignedLessThan
  | SignedLessThanOrEqual
  | SignedGreaterThan
  | SignedGreaterThanOrEqual
deriving DecidableEq

/-- Integer binary opcodes emitted by the arithmetic lowering. -/
inductive BinOp where
  | iadd
  | isub
  | imul
  | udiv
deriving DecidableEq

/-- The AST node for expressions, from `enum Expr` in src/jit.rs. -/
inductive Expr where
  | Literal (text : String)
  | Identifier (name : String)
  | Assign (name : String) (e : Expr)
  | Eq (lhs rhs : Expr)
  | Ne (lhs rhs : Expr)
  | Lt (lhs rhs : Expr)
  | Le (lhs rhs : Expr)
  | Gt (lhs rhs : Expr)
  | Ge (lhs rhs : Expr)
  | Add (lhs rhs : Expr)
  | Sub (lhs rhs : Expr)
  | Mul (lhs rhs : Expr)
  | Div (lhs rhs : Expr)
  | IfElse (cond : Expr) (thenBody : List Expr) (elseBody : List Expr)
  | WhileLoop (cond : Expr) (body : List Expr)
  | Call (name : String) (args : List Expr)

/-- One recorded builder operation.  Blocks and values are identified by the
order in which `create_ebb` / instruction emission allocated them. -/
inductive Event where
  | createEbb (b : Nat)
  | fnParams (b : Nat) (vals : List Nat)
  | appendParam (b : Nat) (v : Nat)
  | switchTo (b : Nat)
  | seal (b : Nat)
  | jump (b : Nat) (args : List Nat)
  | brz (c : Nat) (b : Nat)
  | iconst (v : Nat) (n : Int)
  | binop (op : BinOp) (v : Nat) (l : Nat) (r : Nat)
  | icmp (cc : IntCC) (v : Nat) (l : Nat) (r : Nat)
  | bint (v : Nat) (c : Nat)
  | useVar (x : Nat) (v : Nat)
  | defVar (x : Nat) (v : Nat)
  | declareVar (x : Nat)
  | callFn (name : String) (args : List Nat) (v : Nat)
  | ret (v : Nat)
deriving DecidableEq

/-- Association-list lookup (models `HashMap::get` / `contains_key`). -/
def alookup {α β : Type} [DecidableEq α] : List (α × β) → α → Option β
  | [], _ => none
  | (k, v) :: t, n => if n = k then some v else alookup t n

/-- The builder/translation state: fresh counters for blocks and values, the
per-block entry-parameter table, the variable table with its next index, the
module's declared external functions (name and arity), and the ordered trace
of builder operations. -/
structure BState where
  nextBlock : Nat
  nextValue : Nat
  ebbParams : List (Nat × List Nat)
  vars : List (String × Nat)
  nextIdx : Nat
  funcs : List (String × Nat)
  trace : List Event
deriving DecidableEq

def initState : BState :=
  { nextBlock := 0, nextValue := 0, ebbParams := [], vars := [], nextIdx := 0,
    funcs := [], trace := [] }

/-- Append one builder operation to the trace. -/
def emit (s : BState) (e : Event) : BState :=
  { s with trace := s.trace ++ [e] }

/-- `builder.create_ebb()`: allocate a fresh block. -/
def createEbb (s : BState) : Nat × BState :=
  (s.nextBlock,
   { s with nextBlock := s.nextBlock + 1,
            trace := s.trace ++ [.createEbb s.nextBlock] })

/-- Record a block-entry parameter for block `b`. -/
def addParam : List (Nat × List Nat) → Nat → Nat → List (Nat × List Nat)
  | [], b, v => [(b, [v])]
  | (b', vs) :: t, b, v =>
      if b' = b then (b', vs ++ [v]) :: t else (b', vs) :: addParam t b v

/-- `builder.append_ebb_param(b, I32)`: declare one typed entry parameter on
block `b` and return its value handle. -/
def appendEbbParam (s : BState) (b : Nat) : Nat × BState :=
  (s.nextValue,
   { s with nextValue := s.nextValue + 1,
            ebbParams := addParam s.ebbParams b s.nextValue,
            trace := s.trace ++ [.appendParam b s.nextValue] })

/-- `builder.append_ebb_params_for_function_params(b)`: one entry parameter
per function parameter, returning the parameter value handles. -/
def appendFnParams (s : BState) (b : Nat) (n : Nat) : List Nat × BState :=
  let vs := (List.range n).map (s.nextValue + ·)
  (vs,
   { s with nextValue := s.nextValue + n,
            ebbParams := s.ebbParams ++ [(b, vs)],
            trace := s.trace ++ [.fnParams b vs] })

/-- `builder.ins().iconst(I32, n)`. -/
def iconstIns (s : BState) (n : Int) : Nat × BState :=
  (s.nextValue,
   { s with nextValue := s.nextValue + 1,
            trace := s.trace ++ [.iconst s.nextValue n] })

/-- The optional leading sign of an integer literal, and the remaining
characters. -/
def parseSign : List Char → Int × List Char
  | '+' :: rest => (1, rest)
  | '-' :: rest => (-1, rest)
  | rest => (1, rest)

/-- The value of a digit string. -/
def digitsVal (l : List Char) : Nat :=
  l.foldl (fun a c => a * 10 + (c.toNat - 48)) 0

/-- Modelled from the spec: Rust's `str::parse::<i32>` (the standard library
is outside this repository).  An optional sign followed by one or more ASCII
digits, rejecting any other character and any value outside the signed 32-bit
range. -/
def parseI32 (text : String) : Option Int :=
  if (parseSign text.data).2 = [] then none
  else if (parseSign text.data).2.all (fun c => c.isDigit) then
    if -(2 ^ 31) ≤ (parseSign text.data).1 * (digitsVal (parseSign text.data).2 : Int) ∧
        (parseSign text.data).1 * (digitsVal (parseSign text.data).2 : Int) < 2 ^ 31 then
      some ((parseSign text.data).1 * (digitsVal (parseSign text.data).2 : Int))
    else none
  else none

/-- Modelled from the spec: the backend module's
`declare_function(name, Export, sig)` contract (idempotent per name and
signature, a conflicting re-declaration is an error); a signature here is
just its arity since every parameter and return has the single I32 type. -/
def declareFunction (s : BState) (name : String) (arity : Nat) :
    Except String BState :=
  match alookup s.funcs name with
  | some a => if a = arity then .ok s else .error "problem declaring function"
  | none => .ok { s with funcs := s.funcs ++ [(name, arity)] }

mutual

/-- `FunctionTranslator::translate_expr` (src/jit.rs lines 186-357), with the
`unwrap()` panics modelled as `Except.error`. -/
def translate_expr : Expr → BState → Except String (Nat × BState)
  | .Literal text, s =>
      match parseI32 text with
      | some n =>
          let p := iconstIns s n
          .ok (p.1, p.2)
      | none => .error "invalid literal"
  | .Add lhs rhs, s =>
      match translate_expr lhs s with
      | .error m => .error m
      | .ok (l, s1) =>
        match translate_expr rhs s1 with
        | .error m => .error m
        | .ok (r, s2) =>
            let v := s2.nextValue
            .ok (v, emit { s2 with nextValue := v + 1 } (.binop .iadd v l r))
  | .Sub lhs rhs, s =>
      match translate_expr lhs s with
      | .error m => .error m
      | .ok (l, s1) =>
        match translate_expr rhs s1 with
        | .error m => .error m
        | .ok (r, s2) =>
            let v := s2.nextValue
            .ok (v, emit { s2 with nextValue := v + 1 } (.binop .isub v l r))
  | .Mul lhs rhs, s =>
      match translate_expr lhs s with
      | .error m => .error m
      | .ok (l, s1) =>
        match translate_expr rhs s1 with
        | .error m => .error m
        | .ok (r, s2) =>
            let v := s2.nextValue
            .ok (v, emit { s2 with nextValue := v + 1 } (.binop .imul v l r))
  | .Div lhs rhs, s =>
      match translate_expr lhs s with
      | .error m => .error m
      | .ok (l, s1) =>
        match translate_expr rhs s1 with
        | .error m => .error m
        | .ok (r, s2) =>
            let v := s2.nextValue
            .ok (v, emit { s2 with nextValue := v + 1 } (.binop .udiv v l r))
  | .Eq lhs rhs, s =>
      match translate_expr lhs s with
      | .error m => .error m
      | .ok (l, s1) =>
        match translate_expr rhs s1 with
        | .error m => .error m
        | .ok (r, s2) =>
            let c := s2.nextValue
            let s3 := emit { s2 with nextValue := c + 1 } (.icmp .Equal c l r)
            .ok (c + 1, emit { s3 with nextValue := c + 2 } (.bint (c + 1) c))
  | .Ne lhs rhs, s =>
      match translate_expr lhs s with
      | .error m => .error m
      | .ok (l, s1) =>
        match translate_expr rhs s1 with
        | .error m => .error m
        | .ok (r, s2) =>
            let c := s2.nextValue
            let s3 := emit { s2 with nextValue := c + 1 } (.icmp .NotEqual c l r)
            .ok (c + 1, emit { s3 with nextValue := c + 2 } (.bint (c + 1) c))
  | .Lt lhs rhs, s =>
      match translate_expr lhs s with
      | .error m => .error m
      | .ok (l, s1) =>
        match translate_expr rhs s1 with
        | .error m => .error m
        | .ok (r, s2) =>
            let c := s2.nextValue
            let s3 := emit { s2 with nextValue := c + 1 }
              (.icmp .SignedLessThan c l r)
            .ok (c + 1, emit { s3 with nextValue := c + 2 } (.bint (c + 1) c))
  | .Le lhs rhs, s =>
      match translate_expr lhs s with
      | .error m => .error m
      | .ok (l, s1) =>
        match translate_expr rhs s1 with
        | .error m => .error m
        | .ok (r, s2) =>
            let c := s2.nextValue
            let s3 := emit { s2 with nextValue := c + 1 }
              (.icmp .SignedLessThanOrEqual c l r)
            .ok (c + 1, emit { s3 with nextValue := c + 2 } (.bint (c + 1) c))
  | .Gt lhs rhs, s =>
      match translate_expr lhs s with
      | .error m => .error m
      | .ok (l, s1) =>
        match translate_expr rhs s1 with
        | .error m => .error m
        | .ok (r, s2) =>
            let c := s2.nextValue
            let s3 := emit { s2 with nextValue := c + 1 }
              (.icmp .SignedGreaterThan c l r)
            .ok (c + 1, emit { s3 with nextValue := c + 2 } (.bint (c + 1) c))
  | .Ge lhs rhs, s =>
      match translate_expr lhs s with
      | .error m => .error m
      | .ok (l, s1) =>
        match translate_expr rhs s1 with
        | .error m => .error m
        | .ok (r, s2) =>
            let c := s2.nextValue
            let s3 := emit { s2 with nextValue := c + 1 }
              (.icmp .SignedGreaterThanOrEqual c l r)
            .ok (c + 1, emit { s3 with nextValue := c + 2 } (.bint (c + 1) c))
  | .Call name args, s =>
      match declareFunction s name args.length with
      | .error m => .error m
      | .ok s1 =>
        match translateList args s1 with
        | .error m => .error m
        | .ok (vs, s2) =>
            let v := s2.nextValue
            .ok (v, emit { s2 with nextValue := v + 1 } (.callFn name vs v))
  | .Identifier name, s =>
      match alookup s.vars name with
      | some var =>
          let v := s.nextValue
          .ok (v, emit { s with nextValue := v + 1 } (.useVar var v))
      | none => .error "undeclared variable"
  | .Assign name e, s =>
      match translate_expr e s with
      | .error m => .error m
      | .ok (newValue, s1) =>
        match alookup s1.vars name with
        | some var => .ok (newValue, emit s1 (.defVar var newValue))
        | none => .error "undeclared variable"
  | .IfElse cond thenBody elseBody, s =>
      match translate_expr cond s with
      | .error m => .error m
      | .ok (cv, s1) =>
          let pe := createEbb s1
          let elseBlock := pe.1
          let pm := createEbb pe.2
          let mergeBlock := pm.1
          let pp := appendEbbParam pm.2 mergeBlock
          let s2 := emit pp.2 (.brz cv elseBlock)
          let pz := iconstIns s2 0
          match translateSeq thenBody pz.1 pz.2 with
          | .error m => .error m
          | .ok (thenReturn, s3) =>
              let s4 := emit s3 (.jump mergeBlock [thenReturn])
              let s5 := emit s4 (.switchTo elseBlock)
              let s6 := emit s5 (.seal elseBlock)
              let pz2 := iconstIns s6 0
              match translateSeq elseBody pz2.1 pz2.2 with
              | .error m => .error m
              | .ok (elseReturn, s7) =>
                  let s8 := emit s7 (.jump mergeBlock [elseReturn])
                  let s9 := emit s8 (.switchTo mergeBlock)
                  let s10 := emit s9 (.seal mergeBlock)
                  match alookup s10.ebbParams mergeBlock with
                  | some (phi :: _) => .ok (phi, s10)
                  | _ => .error "missing merge parameter"
  | .WhileLoop cond body, s =>
      let ph := createEbb s
      let headerBlock := ph.1
      let px := createEbb ph.2
      let exitBlock := px.1
      let s1 := emit px.2 (.jump headerBlock [])
      let s2 := emit s1 (.switchTo headerBlock)
      match translate_expr cond s2 with
      | .error m => .error m
      | .ok (cv, s3) =>
          let s4 := emit s3 (.brz cv exitBlock)
          match translateStmts body s4 with
          | .error m => .error m
          | .ok s5 =>
              let s6 := emit s5 (.jump headerBlock [])
              let s7 := emit s6 (.switchTo exitBlock)
              let s8 := emit s7 (.seal headerBlock)
              let s9 := emit s8 (.seal exitBlock)
              let pz := iconstIns s9 0
              .ok (pz.1, pz.2)

/-- The `then`/`else` body loop: `let mut r = iconst 0; for e in body { r =
translate_expr(e) }` keeps the last produced value (`last` is the value of
the zero constant emitted just before the loop). -/
def translateSeq : List Expr → Nat → BState → Except String (Nat × BState)
  | [], last, s => .ok (last, s)
  | e :: rest, _, s =>
      match translate_expr e s with
      | .error m => .error m
      | .ok (v, s1) => translateSeq rest v s1

/-- Argument lowering for calls: left to right, collecting the values. -/
def translateList : List Expr → BState → Except String (List Nat × BState)
  | [], s => .ok ([], s)
  | e :: rest, s =>
      match translate_expr e s with
      | .error m => .error m
      | .ok (v, s1) =>
        match translateList rest s1 with
        | .error m => .error m
        | .ok (vs, s2) => .ok (v :: vs, s2)

/-- Statement loops that discard each statement's value (the `WhileLoop`
body and the function's top-level statement list). -/
def translateStmts : List Expr → BState → Except String BState
  | [], s => .ok s
  | e :: rest, s =>
      match translate_expr e s with
      | .error m => .error m
      | .ok (_, s1) => translateStmts rest s1

end

/-- `declare_variable` (src/jit.rs lines 444-457): create a `Variable` for
the current index; only if the name is new, insert it, declare it to the
builder, and advance the index.  The created variable is returned in either
case, exactly as in the source. -/
def declare_variable (s : BState) (name : String) : BState × Nat :=
  let var := s.nextIdx
  if (alookup s.vars name).isSome then (s, var)
  else
    ({ s with vars := s.vars ++ [(name, var)],
              nextIdx := var + 1,
              trace := s.trace ++ [.declareVar var] }, var)

/-- The parameter loop of `declare_variables`: declare each parameter name
and bind it to the corresponding entry-block parameter value. -/
def declareParams : List (String × Nat) → BState → BState
  | [], s => s
  | (name, val) :: rest, s =>
      let p := declare_variable s name
      declareParams rest (emit p.1 (.defVar p.2 val))

mutual

/-- `declare_variables_in_stmt` (src/jit.rs lines 417-442): recursively
declare the target of every `Assign`, descending into the bodies of
`IfElse` and `WhileLoop`. -/
def declare_variables_in_stmt (s : BState) : Expr → BState
  | .Assign name _ => (declare_variable s name).1
  | .IfElse _ thenBody elseBody =>
      declStmtList (declStmtList s thenBody) elseBody
  | .WhileLoop _ body => declStmtList s body
  | _ => s

def declStmtList (s : BState) : List Expr → BState
  | [] => s
  | e :: rest => declStmtList (declare_variables_in_stmt s e) rest

end

/-- `declare_variables` (src/jit.rs lines 388-413).  `pvals` stands for the
entry block's parameter values `builder.ebb_params(entry_ebb)[i]`; the one
caller passes exactly one value per parameter. -/
def declare_variables (s : BState) (pvals : List Nat) (params : List String)
    (theReturn : String) (stmts : List Expr) : BState :=
  let s1 := declareParams (params.zip pvals) s
  let pz := iconstIns s1 0
  let p2 := declare_variable pz.2 theReturn
  let s3 := emit p2.1 (.defVar p2.2 pz.1)
  declStmtList s3 stmts

/-- `JIT::translate` (src/jit.rs lines 105-172): signature setup carries no
builder state here; create and seal the entry block, bind parameters,
declare all variables, translate every statement, and emit the return. -/
def translate (params : List String) (theReturn : String)
    (stmts : List Expr) : Except String BState :=
  let p0 := createEbb initState
  let entryEbb := p0.1
  let p1 := appendFnParams p0.2 entryEbb params.length
  let s1 := emit p1.2 (.switchTo entryEbb)
  let s2 := emit s1 (.seal entryEbb)
  let s3 := declare_variables s2 p1.1 params theReturn stmts
  match translateStmts stmts s3 with
  | .error m => .error m
  | .ok s4 =>
    match alookup s4.vars theReturn with
    | none => .error "missing return variable"
    | some rv =>
        let v := s4.nextValue
        let s5 := emit { s4 with nextValue := v + 1 } (.useVar rv v)
        .ok (emit s5 (.ret v))

/-! ## Trace predicates -/

/-- The block, if any, that a recorded event jumps or branches to. -/
def evTarget : Event → Option Nat
  | .jump b _ => some b
  | .brz _ b => some b
  | _ => none

/-- The block, if any, that a recorded event seals. -/
def evSeal : Event → Option Nat
  | .seal b => some b
  | _ => none

/-- Whether a recorded event is an emitted IR instruction (an `ins()` call
in the source). -/
def isInstr : Event → Bool
  | .iconst _ _ => true
  | .binop _ _ _ _ => true
  | .icmp _ _ _ _ => true
  | .bint _ _ => true
  | .jump _ _ => true
  | .brz _ _ => true
  | .callFn _ _ _ => true
  | .ret _ => true
  | _ => false

/-- Whether a recorded event declares a variable to the builder. -/
def isDeclEv : Event → Bool
  | .declareVar _ => true
  | _ => false

/-- No event of `t` jumps or branches to block `b`. -/
def noTargetIn (b : Nat) (t : List Event) : Prop :=
  ∀ e ∈ t, evTarget e ≠ some b

/-- Every seal in the trace happens after every jump/branch that targets the
sealed block: once a block is sealed, no later event targets it. -/
def SealWF : List Event → Prop
  | [] => True
  | e :: t => (∀ b, evSeal e = some b → noTargetIn b t) ∧ SealWF t

/-- Boolean version of `SealWF`. -/
def sealWFB : List Event → Bool
  | [] => true
  | e :: t =>
      (match evSeal e with
       | some b => t.all fun e' => evTarget e' ≠ some b
       | none => true) && sealWFB t

/-- The IR instructions of `t` that are emitted while the variable table is
still growing (some `declareVar` occurs strictly later). -/
def instrsBeforeDecls : List Event → List Event
  | [] => []
  | e :: t =>
      if t.any isDeclEv && isInstr e then e :: instrsBeforeDecls t
      else instrsBeforeDecls t

/-! ## Instruction semantics (for the numeric claims)

The meaning of the emitted IR instructions is fixed by the backend, which is
outside this repository; these definitions are modelled from the spec's
description of the lowering (comparisons produce a boolean widened to 0/1;
`udiv` is unsigned 32-bit division; `Lt`/`Le`/`Gt`/`Ge` use signed
two's-complement order). Operand bit patterns are naturals below `2 ^ 32`. -/

/-- The signed two's-complement reading of a 32-bit bit pattern. -/
def toSigned (x : Nat) : Int :=
  if x < 2 ^ 31 then (x : Int) else (x : Int) - 2 ^ 32

/-- Modelled from the spec: the backend's `icmp` instruction on two 32-bit
bit patterns. -/
def icmpSem (cc : IntCC) (x y : Nat) : Bool :=
  match cc with
  | .Equal => x = y
  | .NotEqual => x ≠ y
  | .SignedLessThan => toSigned x < toSigned y
  | .SignedLessThanOrEqual => toSigned x ≤ toSigned y
  | .SignedGreaterThan => toSigned x > toSigned y
  | .SignedGreaterThanOrEqual => toSigned x ≥ toSigned y

/-- Modelled from the spec: the backend's `bint` instruction, widening a
boolean to the 32-bit integer 0 or 1. -/
def bintSem (b : Bool) : Nat :=
  if b then 1 else 0

/-- Modelled from the spec: the backend's `udiv` instruction, the quotient of
the operands read as unsigned 32-bit integers (defined for a nonzero
divisor; the backend traps on zero). -/
def udivSem (x y : Nat) : Nat :=
  x / y

/-- The condition code each comparison constructor is lowered with, read off
the `translate_expr` match arms (src/jit.rs lines 217-265). -/
def cmpDecomp : Expr → Option (IntCC × Expr × Expr)
  | .Eq a b => some (.Equal, a, b)
  | .Ne a b => some (.NotEqual, a, b)
  | .Lt a b => some (.SignedLessThan, a, b)
  | .Le a b => some (.SignedLessThanOrEqual, a, b)
  | .Gt a b => some (.SignedGreaterThan, a, b)
  | .Ge a b => some (.SignedGreaterThanOrEqual, a, b)
  | _ => none

/-! ## Syntactic queries on the AST -/

mutual

/-- Every identifier name the expression reads (an `Identifier` node in any
position). -/
def identReads : Expr → List String
  | .Literal _ => []
  | .Identifier name => [name]
  | .Assign _ e => identReads e
  | .Eq a b | .Ne a b | .Lt a b | .Le a b | .Gt a b | .Ge a b
  | .Add a b | .Sub a b | .Mul a b | .Div a b => identReads a ++ identReads b
  | .IfElse c tb eb => identReads c ++ identReadsList tb ++ identReadsList eb
  | .WhileLoop c body => identReads c ++ identReadsList body
  | .Call _ args => identReadsList args

def identReadsList : List Expr → List String
  | [] => []
  | e :: rest => identReads e ++ identReadsList rest

end

mutual

/-- Every literal text occurring in the expression. -/
def litsOf : Expr → List String
  | .Literal t => [t]
  | .Identifier _ => []
  | .Assign _ e => litsOf e
  | .Eq a b | .Ne a b | .Lt a b | .Le a b | .Gt a b | .Ge a b
  | .Add a b | .Sub a b | .Mul a b | .Div a b => litsOf a ++ litsOf b
  | .IfElse c tb eb => litsOf c ++ litsOfList tb ++ litsOfList eb
  | .WhileLoop c body => litsOf c ++ litsOfList body
  | .Call _ args => litsOfList args

def litsOfList : List Expr → List String
  | [] => []
  | e :: rest => litsOf e ++ litsOfList rest

end

mutual

/-- The `Assign` targets found by the statement walk of
`declare_variables_in_stmt`: the top-level target of an `Assign` statement,
descending only into the bodies of `IfElse` and `WhileLoop`. -/
def stmtAssignTargets : Expr → List String
  | .Assign name _ => [name]
  | .IfElse _ tb eb => stmtAssignTargetsList tb ++ stmtAssignTargetsList eb
  | .WhileLoop _ body => stmtAssignTargetsList body
  | _ => []

def stmtAssignTargetsList : List Expr → List String
  | [] => []
  | e :: rest => stmtAssignTargets e ++ stmtAssignTargetsList rest

end

mutual

/-- The target of every `Assign` node anywhere in the expression, in any
position. -/
def assignTargetsAll : Expr → List String
  | .Literal _ => []
  | .Identifier _ => []
  | .Assign name e => name :: assignTargetsAll e
  | .Eq a b | .Ne a b | .Lt a b | .Le a b | .Gt a b | .Ge a b
  | .Add a b | .Sub a b | .Mul a b | .Div a b =>
      assignTargetsAll a ++ assignTargetsAll b
  | .IfElse c tb eb =>
      assignTargetsAll c ++ assignTargetsAllList tb ++ assignTargetsAllList eb
  | .WhileLoop c body => assignTargetsAll c ++ assignTargetsAllList body
  | .Call _ args => assignTargetsAllList args

def assignTargetsAllList : List Expr → List String
  | [] => []
  | e :: rest => assignTargetsAll e ++ assignTargetsAllList rest

end

/-! ## The spec-side description of the variable table (for the refinement
claim about `declare_variables`) -/

/-- One step of index assignment as the spec words it: a name already in the
table is a no-op, a new name receives the next dense index. -/
def stepName (t : List (String × Nat)) (n : String) : List (String × Nat) :=
  if (alookup t n).isSome then t else t ++ [(n, t.length)]

/-- Following the spec's words: assign dense indices starting at 0 to the
given names in order, skipping names already seen. -/
def specAssignIndices (names : List String) : List (String × Nat) :=
  names.foldl stepName []

/-- Following the spec's words: the variable table of a function is obtained
by indexing the parameter names in declaration order, then the return
variable's name, then the `Assign` targets in statement-walk order. -/
def specVarTable (params : List String) (theReturn : String)
    (stmts : List Expr) : List (String × Nat) :=
  specAssignIndices (params ++ theReturn :: stmtAssignTargetsList stmts)

/-! ## Run projections (used to state and witness theorems) -/

/-- The value produced by a successful `translate_expr` run. -/
def exprVal (e : Expr) (s : BState) : Nat :=
  match translate_expr e s with
  | .ok (v, _) => v
  | .error _ => 0

/-- The state after a successful `translate_expr` run. -/
def exprSt (e : Expr) (s : BState) : BState :=
  match translate_expr e s with
  | .ok (_, s') => s'
  | .error _ => s

/-- The final state of a successful function-level `translate` run. -/
def stOf (params : List String) (theReturn : String)
    (stmts : List Expr) : BState :=
  match translate params theReturn stmts with
  | .ok s => s
  | .error _ => initState

/-! ## Projection lemmas for the builder helpers -/

@[simp] theorem emit_trace (s : BState) (e : Event) :
    (emit s e).trace = s.trace ++ [e] := rfl
@[simp] theorem emit_nextBlock (s : BState) (e : Event) :
    (emit s e).nextBlock = s.nextBlock := rfl
@[simp] theorem emit_nextValue (s : BState) (e : Event) :
    (emit s e).nextValue = s.nextValue := rfl
@[simp] theorem emit_ebbParams (s : BState) (e : Event) :
    (emit s e).ebbParams = s.ebbParams := rfl
@[simp] theorem emit_vars (s : BState) (e : Event) :
    (emit s e).vars = s.vars := rfl
@[simp] theorem emit_nextIdx (s : BState) (e : Event) :
    (emit s e).nextIdx = s.nextIdx := rfl
@[simp] theorem emit_funcs (s : BState) (e : Event) :
    (emit s e).funcs = s.funcs := rfl

@[simp] theorem createEbb_fst (s : BState) : (createEbb s).1 = s.nextBlock := rfl
@[simp] theorem createEbb_trace (s : BState) :
    (createEbb s).2.trace = s.trace ++ [.createEbb s.nextBlock] := rfl
@[simp] theorem createEbb_nextBlock (s : BState) :
    (createEbb s).2.nextBlock = s.nextBlock + 1 := rfl
@[simp] theorem createEbb_nextValue (s : BState) :
    (createEbb s).2.nextValue = s.nextValue := rfl
@[simp] theorem createEbb_ebbParams (s : BState) :
    (createEbb s).2.ebbParams = s.ebbParams := rfl
@[simp] theorem createEbb_vars (s : BState) :
    (createEbb s).2.vars = s.vars := rfl
@[simp] theorem createEbb_nextIdx (s : BState) :
    (createEbb s).2.nextIdx = s.nextIdx := rfl
@[simp] theorem createEbb_funcs (s : BState) :
    (createEbb s).2.funcs = s.funcs := rfl

@[simp] theorem appendEbbParam_fst (s : BState) (b : Nat) :
    (appendEbbParam s b).1 = s.nextValue := rfl
@[simp] theorem appendEbbParam_trace (s : BState) (b : Nat) :
    (appendEbbParam s b).2.trace = s.trace ++ [.appendParam b s.nextValue] := rfl
@[simp] theorem appendEbbParam_nextBlock (s : BState) (b : Nat) :
    (appendEbbParam s b).2.nextBlock = s.nextBlock := rfl
@[simp] theorem appendEbbParam_nextValue (s : BState) (b : Nat) :
    (appendEbbParam s b).2.nextValue = s.nextValue + 1 := rfl
@[simp] theorem appendEbbParam_ebbParams (s : BState) (b : Nat) :
    (appendEbbParam s b).2.ebbParams = addParam s.ebbParams b s.nextValue := rfl
@[simp] theorem appendEbbParam_vars (s : BState) (b : Nat) :
    (appendEbbParam s b).2.vars = s.vars := rfl
@[simp] theorem appendEbbParam_nextIdx (s : BState) (b : Nat) :
    (appendEbbParam s b).2.nextIdx = s.nextIdx := rfl

@[simp] theorem iconstIns_fst (s : BState) (n : Int) :
    (iconstIns s n).1 = s.nextValue := rfl
@[simp] theorem iconstIns_trace (s : BState) (n : Int) :
    (iconstIns s n).2.trace = s.trace ++ [.iconst s.nextValue n] := rfl
@[simp] theorem iconstIns_nextBlock (s : BState) (n : Int) :
    (iconstIns s n).2.nextBlock = s.nextBlock := rfl
@[simp] theorem iconstIns_nextValue (s : BState) (n : Int) :
    (iconstIns s n).2.nextValue = s.nextValue + 1 := rfl
@[simp] theorem iconstIns_ebbParams (s : BState) (n : Int) :
    (iconstIns s n).2.ebbParams = s.ebbParams := rfl
@[simp] theorem iconstIns_vars (s : BState) (n : Int) :
    (iconstIns s n).2.vars = s.vars := rfl
@[simp] theorem iconstIns_nextIdx (s : BState) (n : Int) :
    (iconstIns s n).2.nextIdx = s.nextIdx := rfl
@[simp] theorem iconstIns_funcs (s : BState) (n : Int) :
    (iconstIns s n).2.funcs = s.funcs := rfl

@[simp] theorem appendFnParams_fst (s : BState) (b n : Nat) :
    (appendFnParams s b n).1 = (List.range n).map (s.nextValue + ·) := rfl
@[simp] theorem appendFnParams_trace (s : BState) (b n : Nat) :
    (appendFnParams s b n).2.trace =
      s.trace ++ [.fnParams b ((List.range n).map (s.nextValue + ·))] := rfl
@[simp] theorem appendFnParams_nextBlock (s : BState) (b n : Nat) :
    (appendFnParams s b n).2.nextBlock = s.nextBlock := rfl
@[simp] theorem appendFnParams_vars (s : BState) (b n : Nat) :
    (appendFnParams s b n).2.vars = s.vars := rfl
@[simp] theorem appendFnParams_nextIdx (s : BState) (b n : Nat) :
    (appendFnParams s b n).2.nextIdx = s.nextIdx := rfl
@[simp] theorem appendFnParams_ebbParams (s : BState) (b n : Nat) :
    (appendFnParams s b n).2.ebbParams =
      s.ebbParams ++ [(b, (List.range n).map (s.nextValue + ·))] := rfl

/-! ## Per-constructor reductions of the event predicates -/

@[simp] theorem evTarget_createEbb (b : Nat) :
    evTarget (.createEbb b) = none := rfl

@[simp] theorem evTarget_fnParams (b : Nat) (vals : List Nat) :
    evTarget (.fnParams b vals) = none := rfl

@[simp] theorem evTarget_appendParam (b : Nat) (v : Nat) :
    evTarget (.appendParam b v) = none := rfl

@[simp] theorem evTarget_switchTo (b : Nat) :
    evTarget (.switchTo b) = none := rfl

@[simp] theorem evTarget_seal (b : Nat) :
    evTarget (.seal b) = none := rfl

@[simp] theorem evTarget_jump (b : Nat) (args : List Nat) :
    evTarget (.jump b args) = some b := rfl

@[simp] theorem evTarget_brz (c : Nat) (b : Nat) :
    evTarget (.brz c b) = some b := rfl

@[simp] theorem evTarget_iconst (v : Nat) (n : Int) :
    evTarget (.iconst v n) = none := rfl

@[simp] theorem evTarget_binop (op : BinOp) (v : Nat) (l : Nat) (r : Nat) :
    evTarget (.binop op v l r) = none := rfl

@[simp] theorem evTarget_icmp (cc : IntCC) (v : Nat) (l : Nat) (r : Nat) :
    evTarget (.icmp cc v l r) = none := rfl

@[simp] theorem evTarget_bint (v : Nat) (c : Nat) :
    evTarget (.bint v c) = none := rfl

@[simp] theorem evTarget_useVar (x : Nat) (v : Nat) :
    evTarget (.useVar x v) = none := rfl

@[simp] theorem evTarget_defVar (x : Nat) (v : Nat) :
    evTarget (.defVar x v) = none := rfl

@[simp] theorem evTarget_declareVar (x : Nat) :
    evTarget (.declareVar x) = none := rfl

@[simp] theorem evTarget_callFn (name : String) (args : List Nat) (v : Nat) :
    evTarget (.callFn name args v) = none := rfl

@[simp] theorem evTarget_ret (v : Nat) :
    evTarget (.ret v) = none := rfl

@[simp] theorem evSeal_createEbb (b : Nat) :
    evSeal (.createEbb b) = none := rfl

@[simp] theorem evSeal_fnParams (b : Nat) (vals : List Nat) :
    evSeal (.fnParams b vals) = none := rfl

@[simp] theorem evSeal_appendParam (b : Nat) (v : Nat) :
    evSeal (.appendParam b v) = none := rfl

@[simp] theorem evSeal_switchTo (b : Nat) :
    evSeal (.switchTo b) = none := rfl

@[simp] theorem evSeal_seal (b : Nat) :
    evSeal (.seal b) = some b := rfl

@[simp] theorem evSeal_jump (b : Nat) (args : List Nat) :
    evSeal (.jump b args) = none := rfl

@[simp] theorem evSeal_brz (c : Nat) (b : Nat) :
    evSeal (.brz c b) = none := rfl

@[simp] theorem evSeal_iconst (v : Nat) (n : Int) :
    evSeal (.iconst v n) = none := rfl

@[simp] theorem evSeal_binop (op : BinOp) (v : Nat) (l : Nat) (r : Nat) :
    evSeal (.binop op v l r) = none := rfl

@[simp] theorem evSeal_icmp (cc : IntCC) (v : Nat) (l : Nat) (r : Nat) :
    evSeal (.icmp cc v l r) = none := rfl

@[simp] theorem evSeal_bint (v : Nat) (c : Nat) :
    evSeal (.bint v c) = none := rfl

@[simp] theorem evSeal_useVar (x : Nat) (v : Nat) :
    evSeal (.useVar x v) = none := rfl

@[simp] theorem evSeal_defVar (x : Nat) (v : Nat) :
    evSeal (.defVar x v) = none := rfl

@[simp] theorem evSeal_declareVar (x : Nat) :
    evSeal (.declareVar x) = none := rfl

@[simp] theorem evSeal_callFn (name : String) (args : List Nat) (v : Nat) :
    evSeal (.callFn name args v) = none := rfl

@[simp] theorem evSeal_ret (v : Nat) :
    evSeal (.ret v) = none := rfl

@[simp] theorem isInstr_createEbb (b : Nat) :
    isInstr (.createEbb b) = false := rfl

@[simp] theorem isInstr_fnParams (b : Nat) (vals : List Nat) :
    isInstr (.fnParams b vals) = false := rfl

@[simp] theorem isInstr_appendParam (b : Nat) (v : Nat) :
    isInstr (.appendParam b v) = false := rfl

@[simp] theorem isInstr_switchTo (b : Nat) :
    isInstr (.switchTo b) = false := rfl

@[simp] theorem isInstr_seal (b : Nat) :
    isInstr (.seal b) = false := rfl

@[simp] theorem isInstr_jump (b : Nat) (args : List Nat) :
    isInstr (.jump b args) = true := rfl

@[simp] theorem isInstr_brz (c : Nat) (b : Nat) :
    isInstr (.brz c b) = true := rfl

@[simp] theorem isInstr_iconst (v : Nat) (n : Int) :
    isInstr (.iconst v n) = true := rfl

@[simp] theorem isInstr_binop (op : BinOp) (v : Nat) (l : Nat) (r : Nat) :
    isInstr (.binop op v l r) = true := rfl

@[simp] theorem isInstr_icmp (cc : IntCC) (v : Nat) (l : Nat) (r : Nat) :
    isInstr (.icmp cc v l r) = true := rfl

@[simp] theorem isInstr_bint (v : Nat) (c : Nat) :
    isInstr (.bint v c) = true := rfl

@[simp] theorem isInstr_useVar (x : Nat) (v : Nat) :
    isInstr (.useVar x v) = false := rfl

@[simp] theorem isInstr_defVar (x : Nat) (v : Nat) :
    isInstr (.defVar x v) = false := rfl

@[simp] theorem isInstr_declareVar (x : Nat) :
    isInstr (.declareVar x) = false := rfl

@[simp] theorem isInstr_callFn (name : String) (args : List Nat) (v : Nat) :
    isInstr (.callFn name args v) = true := rfl

@[simp] theorem isInstr_ret (v : Nat) :
    isInstr (.ret v) = true := rfl

@[simp] theorem isDeclEv_createEbb (b : Nat) :
    isDeclEv (.createEbb b) = false := rfl

@[simp] theorem isDeclEv_fnParams (b : Nat) (vals : List Nat) :
    isDeclEv (.fnParams b vals) = false := rfl

@[simp] theorem isDeclEv_appendParam (b : Nat) (v : Nat) :
    isDeclEv (.appendParam b v) = false := rfl

@[simp] theorem isDeclEv_switchTo (b : Nat) :
    isDeclEv (.switchTo b) = false := rfl

@[simp] theorem isDeclEv_seal (b : Nat) :
    isDeclEv (.seal b) = false := rfl

@[simp] theorem isDeclEv_jump (b : Nat) (args : List Nat) :
    isDeclEv (.jump b args) = false := rfl

@[simp] theorem isDeclEv_brz (c : Nat) (b : Nat) :
    isDeclEv (.brz c b) = false := rfl

@[simp] theorem isDeclEv_iconst (v : Nat) (n : Int) :
    isDeclEv (.iconst v n) = false := rfl

@[simp] theorem isDeclEv_binop (op : BinOp) (v : Nat) (l : Nat) (r : Nat) :
    isDeclEv (.binop op v l r) = false := rfl

@[simp] theorem isDeclEv_icmp (cc : IntCC) (v : Nat) (l : Nat) (r : Nat) :
    isDeclEv (.icmp cc v l r) = false := rfl

@[simp] theorem isDeclEv_bint (v : Nat) (c : Nat) :
    isDeclEv (.bint v c) = false := rfl

@[simp] theorem isDeclEv_useVar (x : Nat) (v : Nat) :
    isDeclEv (.useVar x v) = false := rfl

@[simp] theorem isDeclEv_defVar (x : Nat) (v : Nat) :
    isDeclEv (.defVar x v) = false := rfl

@[simp] theorem isDeclEv_declareVar (x : Nat) :
    isDeclEv (.declareVar x) = true := rfl

@[simp] theorem isDeclEv_callFn (name : String) (args : List Nat) (v : Nat) :
    isDeclEv (.callFn name args v) = false := rfl

@[simp] theorem isDeclEv_ret (v : Nat) :
    isDeclEv (.ret v) = false := rfl

/-! ## Basic lemmas about the trace predicates -/

@[simp]
theorem noTargetIn_nil (b : Nat) : noTargetIn b [] := by
  simp [noTargetIn]

@[simp]
theorem noTargetIn_cons (b : Nat) (e : Event) (t : List Event) :
    noTargetIn b (e :: t) ↔ evTarget e ≠ some b ∧ noTargetIn b t := by
  simp [noTargetIn]

@[simp]
theorem noTargetIn_append (b : Nat) (t1 t2 : List Event) :
    noTargetIn b (t1 ++ t2) ↔ noTargetIn b t1 ∧ noTargetIn b t2 := by
  constructor
  · intro h
    exact ⟨fun e he => h e (List.mem_append.mpr (Or.inl he)),
           fun e he => h e (List.mem_append.mpr (Or.inr he))⟩
  · rintro ⟨h1, h2⟩ e he
    rcases List.mem_append.mp he with h | h
    · exact h1 e h
    · exact h2 e h

@[simp]
theorem SealWF_nil : SealWF [] := by
  simp [SealWF]

@[simp]
theorem SealWF_cons (e : Event) (t : List Event) :
    SealWF (e :: t) ↔ (∀ b, evSeal e = some b → noTargetIn b t) ∧ SealWF t :=
  Iff.rfl

theorem SealWF_append {t1 t2 : List Event} (h1 : SealWF t1) (h2 : SealWF t2)
    (hcross : ∀ e ∈ t1, ∀ b, evSeal e = some b → noTargetIn b t2) :
    SealWF (t1 ++ t2) := by
  induction t1 with
  | nil => simpa using h2
  | cons e t ih =>
      rw [List.cons_append, SealWF_cons]
      refine ⟨fun b hb => ?_, ih h1.2 (fun e' he' => hcross e' (by simp [he']))⟩
      rw [noTargetIn_append]
      exact ⟨h1.1 b hb, hcross e (by simp) b hb⟩

theorem sealWFB_eq_true_iff (t : List Event) : sealWFB t = true ↔ SealWF t := by
  induction t with
  | nil => simp [sealWFB]
  | cons e t ih =>
      rw [sealWFB, SealWF_cons, Bool.and_eq_true, ih]
      cases h : evSeal e <;> simp [h, noTargetIn]

theorem alookup_addParam_ne {l : List (Nat × List Nat)} {key b : Nat}
    (hne : b ≠ key) (v : Nat) : alookup (addParam l key v) b = alookup l b := by
  induction l with
  | nil => simp [addParam, alookup, hne]
  | cons p t ih =>
      obtain ⟨k, vs⟩ := p
      by_cases hk : k = key
      · subst hk; simp [addParam, alookup, hne]
      · simp [addParam, hk, alookup, ih]

theorem alookup_addParam_self {l : List (Nat × List Nat)} {key : Nat}
    (hn : alookup l key = none) (v : Nat) :
    alookup (addParam l key v) key = some [v] := by
  induction l with
  | nil => simp [addParam, alookup]
  | cons p t ih =>
      obtain ⟨k, vs⟩ := p
      by_cases hk : k = key
      · subst hk; simp [alookup] at hn
      · have hk' : ¬key = k := fun h => hk h.symm
        rw [alookup, if_neg hk'] at hn
        rw [addParam, if_neg hk, alookup, if_neg hk']
        exact ih hn

/-- Well-formedness of the block-parameter table: no block at or above the
fresh-block counter has entry parameters yet. -/
def ParamsWF (s : BState) : Prop :=
  ∀ b, s.nextBlock ≤ b → alookup s.ebbParams b = none

/-! ## The per-run trace invariant -/

/-- Invariant relating the builder state before and after a (successful) run
of the translator on one expression: the trace grows by `Δ`; block ids only
move forward; the variable table is untouched; the entry parameters of
pre-existing blocks are untouched; every block that `Δ` jumps to, branches
to, or seals was created during the run; every seal in `Δ` happens after all
jumps and branches of `Δ` that target the sealed block; and no variable
declarations are emitted. -/
structure TStep (s s' : BState) (Δ : List Event) : Prop where
  htrace : s'.trace = s.trace ++ Δ
  hblk : s.nextBlock ≤ s'.nextBlock
  hvars : s'.vars = s.vars
  hparams : ∀ b, b < s.nextBlock → alookup s'.ebbParams b = alookup s.ebbParams b
  hbound : ∀ e ∈ Δ, ∀ b, evTarget e = some b ∨ evSeal e = some b →
      s.nextBlock ≤ b ∧ b < s'.nextBlock
  hseal : SealWF Δ
  hnodecl : ∀ e ∈ Δ, isDeclEv e = false
  hpwf : ParamsWF s → ParamsWF s'

theorem TStep.noTargetLt {s s' : BState} {Δ : List Event} (h : TStep s s' Δ)
    {b : Nat} (hb : b < s.nextBlock) : noTargetIn b Δ := by
  intro e he hc
  have := h.hbound e he b (Or.inl hc)
  omega

theorem TStep.noTargetGe {s s' : BState} {Δ : List Event} (h : TStep s s' Δ)
    {b : Nat} (hb : s'.nextBlock ≤ b) : noTargetIn b Δ := by
  intro e he hc
  have := h.hbound e he b (Or.inl hc)
  omega

theorem TStep.refl (s : BState) : TStep s s [] where
  htrace := by simp
  hblk := le_refl _
  hvars := rfl
  hparams := fun _ _ => rfl
  hbound := by simp
  hseal := SealWF_nil
  hnodecl := by simp
  hpwf := id

theorem TStep.comp {s s1 s2 : BState} {Δ1 Δ2 : List Event}
    (h1 : TStep s s1 Δ1) (h2 : TStep s1 s2 Δ2) : TStep s s2 (Δ1 ++ Δ2) where
  htrace := by rw [h2.htrace, h1.htrace, List.append_assoc]
  hblk := le_trans h1.hblk h2.hblk
  hvars := by rw [h2.hvars, h1.hvars]
  hparams := fun b hb => by
    rw [h2.hparams b (lt_of_lt_of_le hb h1.hblk), h1.hparams b hb]
  hbound := by
    intro e he b hor
    rcases List.mem_append.mp he with h | h
    · have := h1.hbound e h b hor
      have := h2.hblk
      omega
    · have := h2.hbound e h b hor
      have := h1.hblk
      omega
  hseal := by
    refine SealWF_append h1.hseal h2.hseal ?_
    intro e he b hb
    have hlt := (h1.hbound e he b (Or.inr hb)).2
    exact h2.noTargetLt hlt
  hnodecl := by
    intro e he
    rcases List.mem_append.mp he with h | h
    · exact h1.hnodecl e h
    · exact h2.hnodecl e h
  hpwf := fun h => h2.hpwf (h1.hpwf h)

/-- An event that neither targets nor seals a block nor declares a variable
can be emitted at any point, with the value counter optionally bumped. -/
theorem TStep.emitPlain (s : BState) (n : Nat) (ev : Event)
    (ht : evTarget ev = none) (hs : evSeal ev = none)
    (hd : isDeclEv ev = false) :
    TStep s (emit { s with nextValue := n } ev) [ev] where
  htrace := rfl
  hblk := le_refl _
  hvars := rfl
  hparams := fun _ _ => rfl
  hbound := by simp [ht, hs]
  hseal := by simp [hs]
  hnodecl := by simp [hd]
  hpwf := fun h => h

theorem TStep.emitEv (s : BState) (ev : Event)
    (ht : evTarget ev = none) (hs : evSeal ev = none)
    (hd : isDeclEv ev = false) : TStep s (emit s ev) [ev] where
  htrace := rfl
  hblk := le_refl _
  hvars := rfl
  hparams := fun _ _ => rfl
  hbound := by simp [ht, hs]
  hseal := by simp [hs]
  hnodecl := by simp [hd]
  hpwf := fun h => h

theorem TStep.iconst (s : BState) (n : Int) :
    TStep s (iconstIns s n).2 [.iconst s.nextValue n] where
  htrace := rfl
  hblk := le_refl _
  hvars := rfl
  hparams := fun _ _ => rfl
  hbound := by simp [evTarget, evSeal]
  hseal := by simp [evSeal]
  hnodecl := by simp [isDeclEv]
  hpwf := fun h => h

theorem TStep.create (s : BState) :
    TStep s (createEbb s).2 [.createEbb s.nextBlock] where
  htrace := rfl
  hblk := by simp [createEbb]
  hvars := rfl
  hparams := fun _ _ => rfl
  hbound := by simp [evTarget, evSeal]
  hseal := by simp [evSeal]
  hnodecl := by simp [isDeclEv]
  hpwf := fun h b hb => h b (by simp [createEbb] at hb ⊢; omega)

theorem declareFunction_TStep {s s1 : BState} {name : String} {a : Nat}
    (h : declareFunction s name a = .ok s1) : TStep s s1 [] := by
  unfold declareFunction at h
  split at h
  · split at h
    · simp only [Except.ok.injEq] at h
      subst h
      exact TStep.refl s
    · exact absurd h (by simp)
  · simp only [Except.ok.injEq] at h
    subst h
    exact { htrace := by simp, hblk := le_refl _, hvars := rfl,
            hparams := fun _ _ => rfl, hbound := by simp, hseal := SealWF_nil,
            hnodecl := by simp, hpwf := id }

/-! ## The main invariant of `translate_expr` -/

/-- Everything a successful run of `translate_expr` guarantees: the trace
grows by a well-formed delta (`TStep`), every identifier the expression reads
is present in the variable table, and every literal it contains parses. -/
def ExprOK (e : Expr) : Prop :=
  ∀ s v s', translate_expr e s = .ok (v, s') →
    (∃ Δ, TStep s s' Δ) ∧
    (∀ n ∈ identReads e, (alookup s.vars n).isSome) ∧
    (∀ t ∈ litsOf e, (parseI32 t).isSome)

theorem seqOK {l : List Expr} (hl : ∀ e ∈ l, ExprOK e) :
    ∀ last s v s', translateSeq l last s = .ok (v, s') →
      (∃ Δ, TStep s s' Δ) ∧
      (∀ n ∈ identReadsList l, (alookup s.vars n).isSome) ∧
      (∀ t ∈ litsOfList l, (parseI32 t).isSome) := by
  induction l with
  | nil =>
      intro last s v s' hok
      rw [translateSeq] at hok
      simp only [Except.ok.injEq, Prod.mk.injEq] at hok
      obtain ⟨-, rfl⟩ := hok
      exact ⟨⟨[], TStep.refl s⟩, by simp [identReadsList], by simp [litsOfList]⟩
  | cons e rest ih =>
      intro last s v s' hok
      rw [translateSeq] at hok
      cases h1 : translate_expr e s with
      | error m => rw [h1] at hok; exact absurd hok (by simp)
      | ok p =>
          obtain ⟨v1, s1⟩ := p
          rw [h1] at hok
          simp only at hok
          obtain ⟨⟨Δ1, hs1⟩, hr1, hl1⟩ := hl e (by simp) s v1 s1 h1
          obtain ⟨⟨Δ2, hs2⟩, hr2, hl2⟩ := ih (fun e' he' => hl e' (by simp [he'])) v1 s1 v s' hok
          refine ⟨⟨Δ1 ++ Δ2, hs1.comp hs2⟩, ?_, ?_⟩
          · intro n hn
            rw [identReadsList] at hn
            rcases List.mem_append.mp hn with h | h
            · exact hr1 n h
            · have := hr2 n h
              rwa [hs1.hvars] at this
          · intro t ht
            rw [litsOfList] at ht
            rcases List.mem_append.mp ht with h | h
            · exact hl1 t h
            · exact hl2 t h

theorem stmtsOK {l : List Expr} (hl : ∀ e ∈ l, ExprOK e) :
    ∀ s s', translateStmts l s = .ok s' →
      (∃ Δ, TStep s s' Δ) ∧
      (∀ n ∈ identReadsList l, (alookup s.vars n).isSome) ∧
      (∀ t ∈ litsOfList l, (parseI32 t).isSome) := by
  induction l with
  | nil =>
      intro s s' hok
      rw [translateStmts] at hok
      simp only [Except.ok.injEq] at hok
      subst hok
      exact ⟨⟨[], TStep.refl s⟩, by simp [identReadsList], by simp [litsOfList]⟩
  | cons e rest ih =>
      intro s s' hok
      rw [translateStmts] at hok
      cases h1 : translate_expr e s with
      | error m => rw [h1] at hok; exact absurd hok (by simp)
      | ok p =>
          obtain ⟨v1, s1⟩ := p
          rw [h1] at hok
          simp only at hok
          obtain ⟨⟨Δ1, hs1⟩, hr1, hl1⟩ := hl e (by simp) s v1 s1 h1
          obtain ⟨⟨Δ2, hs2⟩, hr2, hl2⟩ := ih (fun e' he' => hl e' (by simp [he'])) s1 s' hok
          refine ⟨⟨Δ1 ++ Δ2, hs1.comp hs2⟩, ?_, ?_⟩
          · intro n hn
            rw [identReadsList] at hn
            rcases List.mem_append.mp hn with h | h
            · exact hr1 n h
            · have := hr2 n h
              rwa [hs1.hvars] at this
          · intro t ht
            rw [litsOfList] at ht
            rcases List.mem_append.mp ht with h | h
            · exact hl1 t h
            · exact hl2 t h

theorem listOK {l : List Expr} (hl : ∀ e ∈ l, ExprOK e) :
    ∀ s vs s', translateList l s = .ok (vs, s') →
      (∃ Δ, TStep s s' Δ) ∧
      (∀ n ∈ identReadsList l, (alookup s.vars n).isSome) ∧
      (∀ t ∈ litsOfList l, (parseI32 t).isSome) := by
  induction l with
  | nil =>
      intro s vs s' hok
      rw [translateList] at hok
      simp only [Except.ok.injEq, Prod.mk.injEq] at hok
      obtain ⟨-, rfl⟩ := hok
      exact ⟨⟨[], TStep.refl s⟩, by simp [identReadsList], by simp [litsOfList]⟩
  | cons e rest ih =>
      intro s vs s' hok
      rw [translateList] at hok
      cases h1 : translate_expr e s with
      | error m => rw [h1] at hok; exact absurd hok (by simp)
      | ok p =>
          obtain ⟨v1, s1⟩ := p
          rw [h1] at hok
          simp only at hok
          cases h2 : translateList rest s1 with
          | error m => rw [h2] at hok; exact absurd hok (by simp)
          | ok q =>
              obtain ⟨vs2, s2⟩ := q
              rw [h2] at hok
              simp only [Except.ok.injEq, Prod.mk.injEq] at hok
              obtain ⟨-, rfl⟩ := hok
              obtain ⟨⟨Δ1, hs1⟩, hr1, hl1⟩ := hl e (by simp) s v1 s1 h1
              obtain ⟨⟨Δ2, hs2⟩, hr2, hl2⟩ :=
                ih (fun e' he' => hl e' (by simp [he'])) s1 vs2 s2 h2
              refine ⟨⟨Δ1 ++ Δ2, hs1.comp hs2⟩, ?_, ?_⟩
              · intro n hn
                rw [identReadsList] at hn
                rcases List.mem_append.mp hn with h | h
                · exact hr1 n h
                · have := hr2 n h
                  rwa [hs1.hvars] at this
              · intro t ht
                rw [litsOfList] at ht
                rcases List.mem_append.mp ht with h | h
                · exact hl1 t h
                · exact hl2 t h

theorem ifElseArm {cond : Expr} {thenBody elseBody : List Expr} {s : BState}
    {v : Nat} {s' : BState}
    (ihe : ∀ e' : Expr,
      sizeOf e' < sizeOf (Expr.IfElse cond thenBody elseBody) → ExprOK e')
    (hok : translate_expr (.IfElse cond thenBody elseBody) s = .ok (v, s')) :
    (∃ Δ, TStep s s' Δ) ∧
    (∀ n ∈ identReads (.IfElse cond thenBody elseBody),
      (alookup s.vars n).isSome) ∧
    (∀ t ∈ litsOf (.IfElse cond thenBody elseBody), (parseI32 t).isSome) := by
  have hthen : ∀ e' ∈ thenBody, ExprOK e' := fun e' he' =>
    ihe e' (lt_trans (List.sizeOf_lt_of_mem he') (by simp <;> omega))
  have helse : ∀ e' ∈ elseBody, ExprOK e' := fun e' he' =>
    ihe e' (lt_trans (List.sizeOf_lt_of_mem he') (by simp <;> omega))
  have hcondOK : ExprOK cond := ihe cond (by simp <;> omega)
  rw [translate_expr] at hok
  simp only [createEbb_fst, createEbb_nextBlock, appendEbbParam_fst,
    iconstIns_fst, emit_nextValue, appendEbbParam_nextValue,
    createEbb_nextValue] at hok
  split at hok
  · exact absurd hok (by simp)
  next cv s1 h1 =>
    split at hok
    · exact absurd hok (by simp)
    next thenReturn s3 h2 =>
      split at hok
      · exact absurd hok (by simp)
      next elseReturn s7 h3 =>
        split at hok
        next phi tail heq4 =>
          simp only [Except.ok.injEq, Prod.mk.injEq] at hok
          obtain ⟨h5, h6⟩ := hok
          subst h5
          subst h6
          obtain ⟨⟨Dc, hsc⟩, hrc, hlc⟩ := hcondOK s cv s1 h1
          obtain ⟨⟨Dt, hst⟩, hrt, hlt⟩ := seqOK hthen _ _ thenReturn s3 h2
          obtain ⟨⟨De, hse⟩, hre, hle⟩ := seqOK helse _ _ elseReturn s7 h3
          have hc1 : s.nextBlock ≤ s1.nextBlock := hsc.hblk
          have hc2 : s1.nextBlock + 1 + 1 ≤ s3.nextBlock := by
            have := hst.hblk; simpa using this
          have hc3 : s3.nextBlock ≤ s7.nextBlock := by
            have := hse.hblk; simpa using this
          have hvc : s1.vars = s.vars := hsc.hvars
          have hvt : s3.vars = s1.vars := by
            have := hst.hvars; simpa using this
          have hve : s7.vars = s3.vars := by
            have := hse.hvars; simpa using this
          have hntt : ∀ b, b < s1.nextBlock + 1 + 1 → noTargetIn b Dt :=
            fun b hb => hst.noTargetLt (by simpa using hb)
          have hnte : ∀ b, b < s3.nextBlock → noTargetIn b De :=
            fun b hb => hse.noTargetLt (by simpa using hb)
          refine ⟨⟨Dc ++ ([.createEbb s1.nextBlock,
              .createEbb (s1.nextBlock + 1),
              .appendParam (s1.nextBlock + 1) s1.nextValue,
              .brz cv s1.nextBlock, .iconst (s1.nextValue + 1) 0] ++ (Dt ++
              ([.jump (s1.nextBlock + 1) [thenReturn],
              .switchTo s1.nextBlock, .seal s1.nextBlock,
              .iconst s3.nextValue 0] ++ (De ++
              [.jump (s1.nextBlock + 1) [elseReturn],
              .switchTo (s1.nextBlock + 1),
              .seal (s1.nextBlock + 1)])))), ?_⟩, ?_, ?_⟩
          · refine { htrace := ?_, hblk := ?_, hvars := ?_, hparams := ?_,
                     hbound := ?_, hseal := ?_, hnodecl := ?_, hpwf := ?_ }
            · have t1 := hsc.htrace
              have t2 := hst.htrace
              have t3 := hse.htrace
              simp only [iconstIns_trace, emit_trace, appendEbbParam_trace,
                createEbb_trace, createEbb_nextBlock, createEbb_nextValue,
                appendEbbParam_nextValue, emit_nextValue, iconstIns_nextValue,
                List.append_assoc] at t2 t3
              simp only [emit_trace, t3, t2, t1, List.append_assoc,
                List.cons_append, List.nil_append]
            · simp only [emit_nextBlock]
              omega
            · simp only [emit_vars, hve, hvt, hvc]
            · intro b hb
              have p1 := hsc.hparams b hb
              have p2 := hst.hparams b (by simpa using (by omega :
                b < s1.nextBlock + 1 + 1))
              have p3 := hse.hparams b (by simpa using (by omega :
                b < s3.nextBlock))
              simp only [iconstIns_ebbParams, emit_ebbParams,
                appendEbbParam_ebbParams, createEbb_ebbParams] at p2 p3
              rw [alookup_addParam_ne (by omega)] at p2
              simp only [emit_ebbParams, p3, p2, p1]
            · intro ev hmem b hb
              simp only [emit_nextBlock]
              rcases List.mem_append.mp hmem with h | h
              · have := hsc.hbound ev h b hb
                omega
              rcases List.mem_append.mp h with h | h
              · simp only [List.mem_cons, List.not_mem_nil, or_false] at h
                rcases h with rfl | rfl | rfl | rfl | rfl <;>
                  rcases hb with hb | hb <;> simp at hb <;> omega
              rcases List.mem_append.mp h with h | h
              · have := hst.hbound ev h b hb
                simp only [iconstIns_nextBlock, emit_nextBlock,
                  appendEbbParam_nextBlock, createEbb_nextBlock] at this
                omega
              rcases List.mem_append.mp h with h | h
              · simp only [List.mem_cons, List.not_mem_nil, or_false] at h
                rcases h with rfl | rfl | rfl | rfl <;>
                  rcases hb with hb | hb <;> simp at hb <;> omega
              rcases List.mem_append.mp h with h | h
              · have := hse.hbound ev h b hb
                simp only [iconstIns_nextBlock, emit_nextBlock] at this
                omega
              · simp only [List.mem_cons, List.not_mem_nil, or_false] at h
                rcases h with rfl | rfl | rfl <;>
                  rcases hb with hb | hb <;> simp at hb <;> omega
            · refine SealWF_append hsc.hseal ?_ ?_
              · refine SealWF_append (by simp [SealWF]) ?_ ?_
                · refine SealWF_append hst.hseal ?_ ?_
                  · refine SealWF_append (by simp [SealWF, noTargetIn]) ?_ ?_
                    · refine SealWF_append hse.hseal (by simp [SealWF]) ?_
                      intro ev hev b hb
                      have hbnd := (hse.hbound ev hev b (Or.inr hb)).1
                      simp only [iconstIns_nextBlock, emit_nextBlock] at hbnd
                      simp only [noTargetIn, List.mem_cons, List.not_mem_nil,
                        or_false]
                      rintro e' (rfl | rfl | rfl) <;> simp <;> omega
                    · intro ev hev b hb
                      simp only [List.mem_cons, List.not_mem_nil,
                        or_false] at hev
                      rcases hev with rfl | rfl | rfl | rfl <;>
                        simp at hb
                      subst hb
                      rw [noTargetIn_append]
                      refine ⟨hnte _ (by omega), ?_⟩
                      simp only [noTargetIn, List.mem_cons, List.not_mem_nil,
                        or_false]
                      rintro e' (rfl | rfl | rfl) <;> simp <;> omega
                  · intro ev hev b hb
                    have hbnd := hst.hbound ev hev b (Or.inr hb)
                    simp only [iconstIns_nextBlock, emit_nextBlock,
                      appendEbbParam_nextBlock, createEbb_nextBlock] at hbnd
                    rw [noTargetIn_append]
                    constructor
                    · simp only [noTargetIn, List.mem_cons, List.not_mem_nil,
                        or_false]
                      rintro e' (rfl | rfl | rfl | rfl) <;> simp <;> omega
                    rw [noTargetIn_append]
                    refine ⟨hnte _ (by omega), ?_⟩
                    simp only [noTargetIn, List.mem_cons, List.not_mem_nil,
                      or_false]
                    rintro e' (rfl | rfl | rfl) <;> simp <;> omega
                · intro ev hev b hb
                  simp only [List.mem_cons, List.not_mem_nil, or_false] at hev
                  rcases hev with rfl | rfl | rfl | rfl | rfl <;> simp at hb
              · intro ev hev b hb
                have hbnd := (hsc.hbound ev hev b (Or.inr hb)).2
                rw [noTargetIn_append]
                constructor
                · simp only [noTargetIn, List.mem_cons, List.not_mem_nil,
                    or_false]
                  rintro e' (rfl | rfl | rfl | rfl | rfl) <;> simp <;> omega
                rw [noTargetIn_append]
                refine ⟨hntt _ (by omega), ?_⟩
                rw [noTargetIn_append]
                constructor
                · simp only [noTargetIn, List.mem_cons, List.not_mem_nil,
                    or_false]
                  rintro e' (rfl | rfl | rfl | rfl) <;> simp <;> omega
                rw [noTargetIn_append]
                refine ⟨hnte _ (by omega), ?_⟩
                simp only [noTargetIn, List.mem_cons, List.not_mem_nil,
                  or_false]
                rintro e' (rfl | rfl | rfl) <;> simp <;> omega
            · intro ev hmem
              rcases List.mem_append.mp hmem with h | h
              · exact hsc.hnodecl ev h
              rcases List.mem_append.mp h with h | h
              · simp only [List.mem_cons, List.not_mem_nil, or_false] at h
                rcases h with rfl | rfl | rfl | rfl | rfl <;> simp
              rcases List.mem_append.mp h with h | h
              · exact hst.hnodecl ev h
              rcases List.mem_append.mp h with h | h
              · simp only [List.mem_cons, List.not_mem_nil, or_false] at h
                rcases h with rfl | rfl | rfl | rfl <;> simp
              rcases List.mem_append.mp h with h | h
              · exact hse.hnodecl ev h
              · simp only [List.mem_cons, List.not_mem_nil, or_false] at h
                rcases h with rfl | rfl | rfl <;> simp
            · intro hw
              have w1 := hsc.hpwf hw
              have w3 := hst.hpwf (fun b hb => by
                simp only [iconstIns_ebbParams, emit_ebbParams,
                  appendEbbParam_ebbParams, createEbb_ebbParams]
                simp only [iconstIns_nextBlock, emit_nextBlock,
                  appendEbbParam_nextBlock, createEbb_nextBlock] at hb
                rw [alookup_addParam_ne (by omega)]
                exact w1 b (by omega))
              have w7 := hse.hpwf (fun b hb => by
                simp only [iconstIns_ebbParams, emit_ebbParams]
                simp only [iconstIns_nextBlock, emit_nextBlock] at hb
                exact w3 b hb)
              intro b hb
              simp only [emit_ebbParams]
              simp only [emit_nextBlock] at hb
              exact w7 b hb
          · intro n hn
            simp only [identReads, List.mem_append] at hn
            rcases hn with (h | h) | h
            · exact hrc n h
            · have := hrt n h
              simp only [iconstIns_vars, emit_vars, appendEbbParam_vars,
                createEbb_vars, hvc] at this
              exact this
            · have := hre n h
              simp only [iconstIns_vars, emit_vars, hvt, hvc] at this
              exact this
          · intro t ht
            simp only [litsOf, List.mem_append] at ht
            rcases ht with (h | h) | h
            · exact hlc t h
            · exact hlt t h
            · exact hle t h
        · exact absurd hok (by simp)

theorem whileArm {cond : Expr} {body : List Expr} {s : BState} {v : Nat}
    {s' : BState}
    (ihe : ∀ e' : Expr, sizeOf e' < sizeOf (Expr.WhileLoop cond body) → ExprOK e')
    (hok : translate_expr (.WhileLoop cond body) s = .ok (v, s')) :
    (∃ Δ, TStep s s' Δ) ∧
    (∀ n ∈ identReads (.WhileLoop cond body), (alookup s.vars n).isSome) ∧
    (∀ t ∈ litsOf (.WhileLoop cond body), (parseI32 t).isSome) := by
  have hbody : ∀ e' ∈ body, ExprOK e' := fun e' he' =>
    ihe e' (lt_trans (List.sizeOf_lt_of_mem he') (by simp <;> omega))
  have hcondOK : ExprOK cond := ihe cond (by simp <;> omega)
  rw [translate_expr] at hok
  simp only [createEbb_fst, createEbb_nextBlock] at hok
  split at hok
  · exact absurd hok (by simp)
  next cv s3 h1 =>
    split at hok
    · exact absurd hok (by simp)
    next s5 h2 =>
      simp only [iconstIns_fst, emit_nextValue, Except.ok.injEq,
        Prod.mk.injEq] at hok
      obtain ⟨h3, h4⟩ := hok
      subst h3
      subst h4
      obtain ⟨⟨Dc, hsc⟩, hrc, hlc⟩ := hcondOK _ cv s3 h1
      obtain ⟨⟨Db, hsb⟩, hrb, hlb⟩ := stmtsOK hbody _ s5 h2
      have hc1 : s.nextBlock + 1 + 1 ≤ s3.nextBlock := by
        have := hsc.hblk; simpa using this
      have hc2 : s3.nextBlock ≤ s5.nextBlock := by
        have := hsb.hblk; simpa using this
      have hvc : s3.vars = s.vars := by
        have := hsc.hvars; simpa using this
      have hvb : s5.vars = s3.vars := by
        have := hsb.hvars; simpa using this
      have hntb : ∀ b, b < s3.nextBlock → noTargetIn b Db := fun b hb =>
        hsb.noTargetLt (by simpa using hb)
      have hntc : ∀ b, b < s.nextBlock + 1 + 1 → noTargetIn b Dc := fun b hb =>
        hsc.noTargetLt (by simpa using hb)
      refine ⟨⟨[.createEbb s.nextBlock, .createEbb (s.nextBlock + 1),
          .jump s.nextBlock [], .switchTo s.nextBlock] ++ (Dc ++
          ([.brz cv (s.nextBlock + 1)] ++ (Db ++ [.jump s.nextBlock [],
          .switchTo (s.nextBlock + 1), .seal s.nextBlock,
          .seal (s.nextBlock + 1), .iconst s5.nextValue 0]))), ?_⟩, ?_, ?_⟩
      · refine { htrace := ?_, hblk := ?_, hvars := ?_, hparams := ?_,
                 hbound := ?_, hseal := ?_, hnodecl := ?_, hpwf := ?_ }
        · have t1 := hsc.htrace
          have t2 := hsb.htrace
          simp only [emit_trace, createEbb_trace, createEbb_nextBlock,
            List.append_assoc] at t1 t2
          simp only [iconstIns_trace, emit_trace, emit_nextValue, t2, t1,
            List.append_assoc, List.cons_append, List.nil_append]
        · simp only [iconstIns_nextBlock, emit_nextBlock]
          omega
        · simp only [iconstIns_vars, emit_vars, hvb, hvc]
        · intro b hb
          have p1 := hsc.hparams b (by simpa using (by omega : b < s.nextBlock + 1 + 1))
          have p2 := hsb.hparams b (by simpa using lt_of_lt_of_le (by omega : b < s.nextBlock + 1 + 1) hc1)
          simp only [emit_ebbParams, createEbb_ebbParams] at p1 p2
          simp only [iconstIns_ebbParams, emit_ebbParams, p2, p1]
        · intro ev hmem b hb
          simp only [iconstIns_nextBlock, emit_nextBlock]
          rcases List.mem_append.mp hmem with h | h
          · simp only [List.mem_cons, List.not_mem_nil, or_false] at h
            rcases h with rfl | rfl | rfl | rfl <;>
              rcases hb with hb | hb <;> simp at hb <;> omega
          rcases List.mem_append.mp h with h | h
          · have := hsc.hbound ev h b hb
            simp only [emit_nextBlock, createEbb_nextBlock] at this
            omega
          rcases List.mem_append.mp h with h | h
          · simp only [List.mem_singleton] at h
            subst h
            rcases hb with hb | hb <;> simp at hb <;> omega
          rcases List.mem_append.mp h with h | h
          · have := hsb.hbound ev h b hb
            simp only [emit_nextBlock] at this
            omega
          · simp only [List.mem_cons, List.not_mem_nil, or_false] at h
            rcases h with rfl | rfl | rfl | rfl | rfl <;>
              rcases hb with hb | hb <;> simp at hb <;> omega
        · refine SealWF_append (by simp [SealWF, evSeal]) ?_ ?_
          · refine SealWF_append hsc.hseal ?_ ?_
            · refine SealWF_append (by simp [SealWF, evSeal]) ?_ ?_
              · refine SealWF_append hsb.hseal ?_ ?_
                · simp only [SealWF, evSeal, Option.some.injEq]
                  refine ⟨by simp, by simp, ?_, ?_, by simp, by simp⟩
                  · intro b hb
                    subst hb
                    simp [noTargetIn, evTarget]
                  · intro b hb
                    subst hb
                    simp [noTargetIn, evTarget]
                · intro ev hev b hb
                  have hbnd := (hsb.hbound ev hev b (Or.inr hb)).1
                  simp only [emit_nextBlock] at hbnd
                  simp only [noTargetIn, List.mem_cons, List.not_mem_nil,
                    or_false]
                  rintro e' (rfl | rfl | rfl | rfl | rfl) <;>
                    simp [evTarget] <;> omega
              · intro ev hev b hb
                simp only [List.mem_singleton] at hev
                subst hev
                simp [evSeal] at hb
            · intro ev hev b hb
              have hbnd := hsc.hbound ev hev b (Or.inr hb)
              simp only [emit_nextBlock, createEbb_nextBlock] at hbnd
              rw [noTargetIn_append]
              constructor
              · simp only [noTargetIn, List.mem_singleton]
                rintro e' rfl
                simp [evTarget]
                omega
              rw [noTargetIn_append]
              constructor
              · exact hntb b (by omega)
              · simp only [noTargetIn, List.mem_cons, List.not_mem_nil,
                  or_false]
                rintro e' (rfl | rfl | rfl | rfl | rfl) <;>
                  simp [evTarget] <;> omega
          · intro ev hev b hb
            simp only [List.mem_cons, List.not_mem_nil, or_false] at hev
            rcases hev with rfl | rfl | rfl | rfl <;> simp [evSeal] at hb
        · intro ev hmem
          rcases List.mem_append.mp hmem with h | h
          · simp only [List.mem_cons, List.not_mem_nil, or_false] at h
            rcases h with rfl | rfl | rfl | rfl <;> simp [isDeclEv]
          rcases List.mem_append.mp h with h | h
          · exact hsc.hnodecl ev h
          rcases List.mem_append.mp h with h | h
          · simp only [List.mem_singleton] at h
            subst h
            simp [isDeclEv]
          rcases List.mem_append.mp h with h | h
          · exact hsb.hnodecl ev h
          · simp only [List.mem_cons, List.not_mem_nil, or_false] at h
            rcases h with rfl | rfl | rfl | rfl | rfl <;> simp [isDeclEv]
        · intro hw
          have w2 := hsc.hpwf (fun b hb => by
            simp only [emit_ebbParams, createEbb_ebbParams]
            simp only [emit_nextBlock, createEbb_nextBlock] at hb
            exact hw b (by omega))
          have w5 := hsb.hpwf (fun b hb => by
            simp only [emit_ebbParams]
            simp only [emit_nextBlock] at hb
            exact w2 b hb)
          intro b hb
          simp only [iconstIns_ebbParams, emit_ebbParams]
          simp only [iconstIns_nextBlock, emit_nextBlock] at hb
          exact w5 b hb
      · intro n hn
        simp only [identReads, List.mem_append] at hn
        rcases hn with h | h
        · have := hrc n h
          simpa using this
        · have := hrb n h
          simp only [emit_vars, hvc] at this
          simpa using this
      · intro t ht
        simp only [litsOf, List.mem_append] at ht
        rcases ht with h | h
        · exact hlc t h
        · exact hlb t h

theorem exprOKAux : ∀ (N : Nat) (e : Expr), sizeOf e ≤ N → ExprOK e := by
  intro N
  induction N with
  | zero =>
      intro e he
      exact absurd he (by cases e <;> simp <;> omega)
  | succ N ih =>
    intro e he
    have ihe : ∀ e' : Expr, sizeOf e' < sizeOf e → ExprOK e' := fun e' h' =>
      ih e' (by omega)
    intro s v s' hok
    cases e with
    | Literal text =>
        rw [translate_expr] at hok
        cases hp : parseI32 text with
        | none => rw [hp] at hok; exact absurd hok (by simp)
        | some n =>
            rw [hp] at hok
            simp only [Except.ok.injEq, Prod.mk.injEq] at hok
            obtain ⟨h1, h2⟩ := hok
            subst h1
            subst h2
            refine ⟨⟨_, TStep.iconst s n⟩, by simp [identReads], ?_⟩
            intro t ht
            simp only [litsOf, List.mem_singleton] at ht
            subst ht
            simp [hp]
    | Identifier name =>
        rw [translate_expr] at hok
        cases hv : alookup s.vars name with
        | none => rw [hv] at hok; exact absurd hok (by simp)
        | some var =>
            rw [hv] at hok
            simp only [Except.ok.injEq, Prod.mk.injEq] at hok
            obtain ⟨h1, h2⟩ := hok
            subst h1
            subst h2
            refine ⟨⟨_, TStep.emitPlain s (s.nextValue + 1)
              (.useVar var s.nextValue) rfl rfl rfl⟩, ?_, by simp [litsOf]⟩
            intro n hn
            simp only [identReads, List.mem_singleton] at hn
            subst hn
            simp [hv]
    | Assign name e =>
        rw [translate_expr] at hok
        cases h1 : translate_expr e s with
        | error m => rw [h1] at hok; exact absurd hok (by simp)
        | ok p =>
          obtain ⟨nv, s1⟩ := p
          rw [h1] at hok
          simp only at hok
          cases hv : alookup s1.vars name with
          | none => rw [hv] at hok; exact absurd hok (by simp)
          | some var =>
            rw [hv] at hok
            simp only [Except.ok.injEq, Prod.mk.injEq] at hok
            obtain ⟨h2, h3⟩ := hok
            subst h2
            subst h3
            obtain ⟨⟨D1, hs1⟩, hr1, hl1⟩ := ihe e (by simp <;> omega) s nv s1 h1
            exact ⟨⟨D1 ++ [.defVar var nv],
              hs1.comp (TStep.emitEv s1 (.defVar var nv) rfl rfl rfl)⟩,
              by simpa [identReads] using hr1, by simpa [litsOf] using hl1⟩
    | Add lhs rhs =>
        rw [translate_expr] at hok
        cases h1 : translate_expr lhs s with
        | error m => rw [h1] at hok; exact absurd hok (by simp)
        | ok p =>
          obtain ⟨l, s1⟩ := p
          rw [h1] at hok
          simp only at hok
          cases h2 : translate_expr rhs s1 with
          | error m => rw [h2] at hok; exact absurd hok (by simp)
          | ok q =>
            obtain ⟨r, s2⟩ := q
            rw [h2] at hok
            simp only [Except.ok.injEq, Prod.mk.injEq] at hok
            obtain ⟨h3, h4⟩ := hok
            subst h3
            subst h4
            obtain ⟨⟨D1, hs1⟩, hr1, hl1⟩ := ihe lhs (by simp <;> omega) s l s1 h1
            obtain ⟨⟨D2, hs2⟩, hr2, hl2⟩ := ihe rhs (by simp <;> omega) s1 r s2 h2
            refine ⟨⟨D1 ++ (D2 ++ [.binop .iadd s2.nextValue l r]),
              hs1.comp (hs2.comp (TStep.emitPlain s2 (s2.nextValue + 1)
                (.binop .iadd s2.nextValue l r) rfl rfl rfl))⟩, ?_, ?_⟩
            · intro n hn
              simp only [identReads, List.mem_append] at hn
              rcases hn with h | h
              · exact hr1 n h
              · have := hr2 n h
                rwa [hs1.hvars] at this
            · intro t ht
              simp only [litsOf, List.mem_append] at ht
              rcases ht with h | h
              · exact hl1 t h
              · exact hl2 t h
    | Sub lhs rhs =>
        rw [translate_expr] at hok
        cases h1 : translate_expr lhs s with
        | error m => rw [h1] at hok; exact absurd hok (by simp)
        | ok p =>
          obtain ⟨l, s1⟩ := p
          rw [h1] at hok
          simp only at hok
          cases h2 : translate_expr rhs s1 with
          | error m => rw [h2] at hok; exact absurd hok (by simp)
          | ok q =>
            obtain ⟨r, s2⟩ := q
            rw [h2] at hok
            simp only [Except.ok.injEq, Prod.mk.injEq] at hok
            obtain ⟨h3, h4⟩ := hok
            subst h3
            subst h4
            obtain ⟨⟨D1, hs1⟩, hr1, hl1⟩ := ihe lhs (by simp <;> omega) s l s1 h1
            obtain ⟨⟨D2, hs2⟩, hr2, hl2⟩ := ihe rhs (by simp <;> omega) s1 r s2 h2
            refine ⟨⟨D1 ++ (D2 ++ [.binop .isub s2.nextValue l r]),
              hs1.comp (hs2.comp (TStep.emitPlain s2 (s2.nextValue + 1)
                (.binop .isub s2.nextValue l r) rfl rfl rfl))⟩, ?_, ?_⟩
            · intro n hn
              simp only [identReads, List.mem_append] at hn
              rcases hn with h | h
              · exact hr1 n h
              · have := hr2 n h
                rwa [hs1.hvars] at this
            · intro t ht
              simp only [litsOf, List.mem_append] at ht
              rcases ht with h | h
              · exact hl1 t h
              · exact hl2 t h
    | Mul lhs rhs =>
        rw [translate_expr] at hok
        cases h1 : translate_expr lhs s with
        | error m => rw [h1] at hok; exact absurd hok (by simp)
        | ok p =>
          obtain ⟨l, s1⟩ := p
          rw [h1] at hok
          simp only at hok
          cases h2 : translate_expr rhs s1 with
          | error m => rw [h2] at hok; exact absurd hok (by simp)
          | ok q =>
            obtain ⟨r, s2⟩ := q
            rw [h2] at hok
            simp only [Except.ok.injEq, Prod.mk.injEq] at hok
            obtain ⟨h3, h4⟩ := hok
            subst h3
            subst h4
            obtain ⟨⟨D1, hs1⟩, hr1, hl1⟩ := ihe lhs (by simp <;> omega) s l s1 h1
            obtain ⟨⟨D2, hs2⟩, hr2, hl2⟩ := ihe rhs (by simp <;> omega) s1 r s2 h2
            refine ⟨⟨D1 ++ (D2 ++ [.binop .imul s2.nextValue l r]),
              hs1.comp (hs2.comp (TStep.emitPlain s2 (s2.nextValue + 1)
                (.binop .imul s2.nextValue l r) rfl rfl rfl))⟩, ?_, ?_⟩
            · intro n hn
              simp only [identReads, List.mem_append] at hn
              rcases hn with h | h
              · exact hr1 n h
              · have := hr2 n h
                rwa [hs1.hvars] at this
            · intro t ht
              simp only [litsOf, List.mem_append] at ht
              rcases ht with h | h
              · exact hl1 t h
              · exact hl2 t h
    | Div lhs rhs =>
        rw [translate_expr] at hok
        cases h1 : translate_expr lhs s with
        | error m => rw [h1] at hok; exact absurd hok (by simp)
        | ok p =>
          obtain ⟨l, s1⟩ := p
          rw [h1] at hok
          simp only at hok
          cases h2 : translate_expr rhs s1 with
          | error m => rw [h2] at hok; exact absurd hok (by simp)
          | ok q =>
            obtain ⟨r, s2⟩ := q
            rw [h2] at hok
            simp only [Except.ok.injEq, Prod.mk.injEq] at hok
            obtain ⟨h3, h4⟩ := hok
            subst h3
            subst h4
            obtain ⟨⟨D1, hs1⟩, hr1, hl1⟩ := ihe lhs (by simp <;> omega) s l s1 h1
            obtain ⟨⟨D2, hs2⟩, hr2, hl2⟩ := ihe rhs (by simp <;> omega) s1 r s2 h2
            refine ⟨⟨D1 ++ (D2 ++ [.binop .udiv s2.nextValue l r]),
              hs1.comp (hs2.comp (TStep.emitPlain s2 (s2.nextValue + 1)
                (.binop .udiv s2.nextValue l r) rfl rfl rfl))⟩, ?_, ?_⟩
            · intro n hn
              simp only [identReads, List.mem_append] at hn
              rcases hn with h | h
              · exact hr1 n h
              · have := hr2 n h
                rwa [hs1.hvars] at this
            · intro t ht
              simp only [litsOf, List.mem_append] at ht
              rcases ht with h | h
              · exact hl1 t h
              · exact hl2 t h
    | Eq lhs rhs =>
        rw [translate_expr] at hok
        cases h1 : translate_expr lhs s with
        | error m => rw [h1] at hok; exact absurd hok (by simp)
        | ok p =>
          obtain ⟨l, s1⟩ := p
          rw [h1] at hok
          simp only at hok
          cases h2 : translate_expr rhs s1 with
          | error m => rw [h2] at hok; exact absurd hok (by simp)
          | ok q =>
            obtain ⟨r, s2⟩ := q
            rw [h2] at hok
            simp only [Except.ok.injEq, Prod.mk.injEq] at hok
            obtain ⟨h3, h4⟩ := hok
            subst h3
            subst h4
            obtain ⟨⟨D1, hs1⟩, hr1, hl1⟩ := ihe lhs (by simp <;> omega) s l s1 h1
            obtain ⟨⟨D2, hs2⟩, hr2, hl2⟩ := ihe rhs (by simp <;> omega) s1 r s2 h2
            refine ⟨⟨D1 ++ (D2 ++ ([.icmp .Equal s2.nextValue l r] ++
              [.bint (s2.nextValue + 1) s2.nextValue])),
              hs1.comp (hs2.comp ((TStep.emitPlain s2 (s2.nextValue + 1)
                (.icmp .Equal s2.nextValue l r) rfl rfl rfl).comp
                (TStep.emitPlain _ (s2.nextValue + 2)
                  (.bint (s2.nextValue + 1) s2.nextValue) rfl rfl rfl)))⟩,
              ?_, ?_⟩
            · intro n hn
              simp only [identReads, List.mem_append] at hn
              rcases hn with h | h
              · exact hr1 n h
              · have := hr2 n h
                rwa [hs1.hvars] at this
            · intro t ht
              simp only [litsOf, List.mem_append] at ht
              rcases ht with h | h
              · exact hl1 t h
              · exact hl2 t h
    | Ne lhs rhs =>
        rw [translate_expr] at hok
        cases h1 : translate_expr lhs s with
        | error m => rw [h1] at hok; exact absurd hok (by simp)
        | ok p =>
          obtain ⟨l, s1⟩ := p
          rw [h1] at hok
          simp only at hok
          cases h2 : translate_expr rhs s1 with
          | error m => rw [h2] at hok; exact absurd hok (by simp)
          | ok q =>
            obtain ⟨r, s2⟩ := q
            rw [h2] at hok
            simp only [Except.ok.injEq, Prod.mk.injEq] at hok
            obtain ⟨h3, h4⟩ := hok
            subst h3
            subst h4
            obtain ⟨⟨D1, hs1⟩, hr1, hl1⟩ := ihe lhs (by simp <;> omega) s l s1 h1
            obtain ⟨⟨D2, hs2⟩, hr2, hl2⟩ := ihe rhs (by simp <;> omega) s1 r s2 h2
            refine ⟨⟨D1 ++ (D2 ++ ([.icmp .NotEqual s2.nextValue l r] ++
              [.bint (s2.nextValue + 1) s2.nextValue])),
              hs1.comp (hs2.comp ((TStep.emitPlain s2 (s2.nextValue + 1)
                (.icmp .NotEqual s2.nextValue l r) rfl rfl rfl).comp
                (TStep.emitPlain _ (s2.nextValue + 2)
                  (.bint (s2.nextValue + 1) s2.nextValue) rfl rfl rfl)))⟩,
              ?_, ?_⟩
            · intro n hn
              simp only [identReads, List.mem_append] at hn
              rcases hn with h | h
              · exact hr1 n h
              · have := hr2 n h
                rwa [hs1.hvars] at this
            · intro t ht
              simp only [litsOf, List.mem_append] at ht
              rcases ht with h | h
              · exact hl1 t h
              · exact hl2 t h
    | Lt lhs rhs =>
        rw [translate_expr] at hok
        cases h1 : translate_expr lhs s with
        | error m => rw [h1] at hok; exact absurd hok (by simp)
        | ok p =>
          obtain ⟨l, s1⟩ := p
          rw [h1] at hok
          simp only at hok
          cases h2 : translate_expr rhs s1 with
          | error m => rw [h2] at hok; exact absurd hok (by simp)
          | ok q =>
            obtain ⟨r, s2⟩ := q
            rw [h2] at hok
            simp only [Except.ok.injEq, Prod.mk.injEq] at hok
            obtain ⟨h3, h4⟩ := hok
            subst h3
            subst h4
            obtain ⟨⟨D1, hs1⟩, hr1, hl1⟩ := ihe lhs (by simp <;> omega) s l s1 h1
            obtain ⟨⟨D2, hs2⟩, hr2, hl2⟩ := ihe rhs (by simp <;> omega) s1 r s2 h2
            refine ⟨⟨D1 ++ (D2 ++ ([.icmp .SignedLessThan s2.nextValue l r] ++
              [.bint (s2.nextValue + 1) s2.nextValue])),
              hs1.comp (hs2.comp ((TStep.emitPlain s2 (s2.nextValue + 1)
                (.icmp .SignedLessThan s2.nextValue l r) rfl rfl rfl).comp
                (TStep.emitPlain _ (s2.nextValue + 2)
                  (.bint (s2.nextValue + 1) s2.nextValue) rfl rfl rfl)))⟩,
              ?_, ?_⟩
            · intro n hn
              simp only [identReads, List.mem_append] at hn
              rcases hn with h | h
              · exact hr1 n h
              · have := hr2 n h
                rwa [hs1.hvars] at this
            · intro t ht
              simp only [litsOf, List.mem_append] at ht
              rcases ht with h | h
              · exact hl1 t h
              · exact hl2 t h
    | Le lhs rhs =>
        rw [translate_expr] at hok
        cases h1 : translate_expr lhs s with
        | error m => rw [h1] at hok; exact absurd hok (by simp)
        | ok p =>
          obtain ⟨l, s1⟩ := p
          rw [h1] at hok
          simp only at hok
          cases h2 : translate_expr rhs s1 with
          | error m => rw [h2] at hok; exact absurd hok (by simp)
          | ok q =>
            obtain ⟨r, s2⟩ := q
            rw [h2] at hok
            simp only [Except.ok.injEq, Prod.mk.injEq] at hok
            obtain ⟨h3, h4⟩ := hok
            subst h3
            subst h4
            obtain ⟨⟨D1, hs1⟩, hr1, hl1⟩ := ihe lhs (by simp <;> omega) s l s1 h1
            obtain ⟨⟨D2, hs2⟩, hr2, hl2⟩ := ihe rhs (by simp <;> omega) s1 r s2 h2
            refine ⟨⟨D1 ++ (D2 ++ ([.icmp .SignedLessThanOrEqual s2.nextValue l r] ++
              [.bint (s2.nextValue + 1) s2.nextValue])),
              hs1.comp (hs2.comp ((TStep.emitPlain s2 (s2.nextValue + 1)
                (.icmp .SignedLessThanOrEqual s2.nextValue l r) rfl rfl rfl).comp
                (TStep.emitPlain _ (s2.nextValue + 2)
                  (.bint (s2.nextValue + 1) s2.nextValue) rfl rfl rfl)))⟩,
              ?_, ?_⟩
            · intro n hn
              simp only [identReads, List.mem_append] at hn
              rcases hn with h | h
              · exact hr1 n h
              · have := hr2 n h
                rwa [hs1.hvars] at this
            · intro t ht
              simp only [litsOf, List.mem_append] at ht
              rcases ht with h | h
              · exact hl1 t h
              · exact hl2 t h
    | Gt lhs rhs =>
        rw [translate_expr] at hok
        cases h1 : translate_expr lhs s with
        | error m => rw [h1] at hok; exact absurd hok (by simp)
        | ok p =>
          obtain ⟨l, s1⟩ := p
          rw [h1] at hok
          simp only at hok
          cases h2 : translate_expr rhs s1 with
          | error m => rw [h2] at hok; exact absurd hok (by simp)
          | ok q =>
            obtain ⟨r, s2⟩ := q
            rw [h2] at hok
            simp only [Except.ok.injEq, Prod.mk.injEq] at hok
            obtain ⟨h3, h4⟩ := hok
            subst h3
            subst h4
            obtain ⟨⟨D1, hs1⟩, hr1, hl1⟩ := ihe lhs (by simp <;> omega) s l s1 h1
            obtain ⟨⟨D2, hs2⟩, hr2, hl2⟩ := ihe rhs (by simp <;> omega) s1 r s2 h2
            refine ⟨⟨D1 ++ (D2 ++ ([.icmp .SignedGreaterThan s2.nextValue l r] ++
              [.bint (s2.nextValue + 1) s2.nextValue])),
              hs1.comp (hs2.comp ((TStep.emitPlain s2 (s2.nextValue + 1)
                (.icmp .SignedGreaterThan s2.nextValue l r) rfl rfl rfl).comp
                (TStep.emitPlain _ (s2.nextValue + 2)
                  (.bint (s2.nextValue + 1) s2.nextValue) rfl rfl rfl)))⟩,
              ?_, ?_⟩
            · intro n hn
              simp only [identReads, List.mem_append] at hn
              rcases hn with h | h
              · exact hr1 n h
              · have := hr2 n h
                rwa [hs1.hvars] at this
            · intro t ht
              simp only [litsOf, List.mem_append] at ht
              rcases ht with h | h
              · exact hl1 t h
              · exact hl2 t h
    | Ge lhs rhs =>
        rw [translate_expr] at hok
        cases h1 : translate_expr lhs s with
        | error m => rw [h1] at hok; exact absurd hok (by simp)
        | ok p =>
          obtain ⟨l, s1⟩ := p
          rw [h1] at hok
          simp only at hok
          cases h2 : translate_expr rhs s1 with
          | error m => rw [h2] at hok; exact absurd hok (by simp)
          | ok q =>
            obtain ⟨r, s2⟩ := q
            rw [h2] at hok
            simp only [Except.ok.injEq, Prod.mk.injEq] at hok
            obtain ⟨h3, h4⟩ := hok
            subst h3
            subst h4
            obtain ⟨⟨D1, hs1⟩, hr1, hl1⟩ := ihe lhs (by simp <;> omega) s l s1 h1
            obtain ⟨⟨D2, hs2⟩, hr2, hl2⟩ := ihe rhs (by simp <;> omega) s1 r s2 h2
            refine ⟨⟨D1 ++ (D2 ++ ([.icmp .SignedGreaterThanOrEqual s2.nextValue l r] ++
              [.bint (s2.nextValue + 1) s2.nextValue])),
              hs1.comp (hs2.comp ((TStep.emitPlain s2 (s2.nextValue + 1)
                (.icmp .SignedGreaterThanOrEqual s2.nextValue l r) rfl rfl rfl).comp
                (TStep.emitPlain _ (s2.nextValue + 2)
                  (.bint (s2.nextValue + 1) s2.nextValue) rfl rfl rfl)))⟩,
              ?_, ?_⟩
            · intro n hn
              simp only [identReads, List.mem_append] at hn
              rcases hn with h | h
              · exact hr1 n h
              · have := hr2 n h
                rwa [hs1.hvars] at this
            · intro t ht
              simp only [litsOf, List.mem_append] at ht
              rcases ht with h | h
              · exact hl1 t h
              · exact hl2 t h
    | Call name args =>
        rw [translate_expr] at hok
        cases h0 : declareFunction s name args.length with
        | error m => rw [h0] at hok; exact absurd hok (by simp)
        | ok s1 =>
          rw [h0] at hok
          simp only at hok
          cases h1 : translateList args s1 with
          | error m => rw [h1] at hok; exact absurd hok (by simp)
          | ok p =>
            obtain ⟨vs, s2⟩ := p
            rw [h1] at hok
            simp only [Except.ok.injEq, Prod.mk.injEq] at hok
            obtain ⟨h3, h4⟩ := hok
            subst h3
            subst h4
            have hd := declareFunction_TStep h0
            have hargs : ∀ e' ∈ args, ExprOK e' := fun e' he' =>
              ihe e' (lt_trans (List.sizeOf_lt_of_mem he') (by simp <;> omega))
            obtain ⟨⟨D1, hs1⟩, hr1, hl1⟩ := listOK hargs s1 vs s2 h1
            refine ⟨⟨[] ++ (D1 ++ [.callFn name vs s2.nextValue]),
              hd.comp (hs1.comp (TStep.emitPlain s2 (s2.nextValue + 1)
                (.callFn name vs s2.nextValue) rfl rfl rfl))⟩, ?_, ?_⟩
            · intro n hn
              simp only [identReads] at hn
              have := hr1 n hn
              rwa [hd.hvars] at this
            · intro t ht
              simp only [litsOf] at ht
              exact hl1 t ht
    | IfElse cond thenBody elseBody =>
        exact ifElseArm ihe hok
    | WhileLoop cond body =>
        exact whileArm ihe hok

/-- The main invariant, for every expression. -/
theorem exprOK (e : Expr) : ExprOK e := exprOKAux (sizeOf e) e (le_refl _)

/-! ## The declaration phase -/

/-! ## Per-constructor reductions of the statement walk -/

@[simp] theorem stmtAssignTargets_Literal (text : String) :
    stmtAssignTargets (.Literal text) = [] := rfl

@[simp] theorem stmtAssignTargets_Identifier (name : String) :
    stmtAssignTargets (.Identifier name) = [] := rfl

@[simp] theorem stmtAssignTargets_Assign (name : String) (e : Expr) :
    stmtAssignTargets (.Assign name e) = [name] := rfl

@[simp] theorem stmtAssignTargets_Eq (a b : Expr) :
    stmtAssignTargets (.Eq a b) = [] := rfl

@[simp] theorem stmtAssignTargets_Ne (a b : Expr) :
    stmtAssignTargets (.Ne a b) = [] := rfl

@[simp] theorem stmtAssignTargets_Lt (a b : Expr) :
    stmtAssignTargets (.Lt a b) = [] := rfl

@[simp] theorem stmtAssignTargets_Le (a b : Expr) :
    stmtAssignTargets (.Le a b) = [] := rfl

@[simp] theorem stmtAssignTargets_Gt (a b : Expr) :
    stmtAssignTargets (.Gt a b) = [] := rfl

@[simp] theorem stmtAssignTargets_Ge (a b : Expr) :
    stmtAssignTargets (.Ge a b) = [] := rfl

@[simp] theorem stmtAssignTargets_Add (a b : Expr) :
    stmtAssignTargets (.Add a b) = [] := rfl

@[simp] theorem stmtAssignTargets_Sub (a b : Expr) :
    stmtAssignTargets (.Sub a b) = [] := rfl

@[simp] theorem stmtAssignTargets_Mul (a b : Expr) :
    stmtAssignTargets (.Mul a b) = [] := rfl

@[simp] theorem stmtAssignTargets_Div (a b : Expr) :
    stmtAssignTargets (.Div a b) = [] := rfl

@[simp] theorem stmtAssignTargets_IfElse (c : Expr) (tb eb : List Expr) :
    stmtAssignTargets (.IfElse c tb eb) = stmtAssignTargetsList tb ++ stmtAssignTargetsList eb := rfl

@[simp] theorem stmtAssignTargets_WhileLoop (c : Expr) (bd : List Expr) :
    stmtAssignTargets (.WhileLoop c bd) = stmtAssignTargetsList bd := rfl

@[simp] theorem stmtAssignTargets_Call (f : String) (args : List Expr) :
    stmtAssignTargets (.Call f args) = [] := rfl

@[simp] theorem dvs_Literal (s : BState) (text : String) :
    declare_variables_in_stmt s (.Literal text) = s := rfl

@[simp] theorem dvs_Identifier (s : BState) (name : String) :
    declare_variables_in_stmt s (.Identifier name) = s := rfl

@[simp] theorem dvs_Assign (s : BState) (name : String) (e : Expr) :
    declare_variables_in_stmt s (.Assign name e) = (declare_variable s name).1 := rfl

@[simp] theorem dvs_Eq (s : BState) (a b : Expr) :
    declare_variables_in_stmt s (.Eq a b) = s := rfl

@[simp] theorem dvs_Ne (s : BState) (a b : Expr) :
    declare_variables_in_stmt s (.Ne a b) = s := rfl

@[simp] theorem dvs_Lt (s : BState) (a b : Expr) :
    declare_variables_in_stmt s (.Lt a b) = s := rfl

@[simp] theorem dvs_Le (s : BState) (a b : Expr) :
    declare_variables_in_stmt s (.Le a b) = s := rfl

@[simp] theorem dvs_Gt (s : BState) (a b : Expr) :
    declare_variables_in_stmt s (.Gt a b) = s := rfl

@[simp] theorem dvs_Ge (s : BState) (a b : Expr) :
    declare_variables_in_stmt s (.Ge a b) = s := rfl

@[simp] theorem dvs_Add (s : BState) (a b : Expr) :
    declare_variables_in_stmt s (.Add a b) = s := rfl

@[simp] theorem dvs_Sub (s : BState) (a b : Expr) :
    declare_variables_in_stmt s (.Sub a b) = s := rfl

@[simp] theorem dvs_Mul (s : BState) (a b : Expr) :
    declare_variables_in_stmt s (.Mul a b) = s := rfl

@[simp] theorem dvs_Div (s : BState) (a b : Expr) :
    declare_variables_in_stmt s (.Div a b) = s := rfl

@[simp] theorem dvs_IfElse (s : BState) (c : Expr) (tb eb : List Expr) :
    declare_variables_in_stmt s (.IfElse c tb eb) = declStmtList (declStmtList s tb) eb := rfl

@[simp] theorem dvs_WhileLoop (s : BState) (c : Expr) (bd : List Expr) :
    declare_variables_in_stmt s (.WhileLoop c bd) = declStmtList s bd := rfl

@[simp] theorem dvs_Call (s : BState) (f : String) (args : List Expr) :
    declare_variables_in_stmt s (.Call f args) = s := rfl


/-- Events the declaration phase may emit besides the zero-init constant. -/
def isDeclOrDef (ev : Event) : Prop :=
  (∃ i, ev = .declareVar i) ∨ (∃ i v, ev = .defVar i v)

theorem alookup_append {α β : Type} [DecidableEq α] (t1 t2 : List (α × β))
    (n : α) :
    alookup (t1 ++ t2) n =
      match alookup t1 n with
      | some v => some v
      | none => alookup t2 n := by
  induction t1 with
  | nil => simp [alookup]
  | cons p t ih =>
      obtain ⟨k, v⟩ := p
      by_cases hk : n = k
      · subst hk; simp [alookup]
      · simp [alookup, hk, ih]

theorem stepName_lookup_isSome (t : List (String × Nat)) (m n : String) :
    (alookup (stepName t m) n).isSome ↔ (alookup t n).isSome ∨ n = m := by
  unfold stepName
  cases hm : alookup t m with
  | some v =>
      rw [if_pos (by simp [hm])]
      constructor
      · exact Or.inl
      · rintro (h | rfl)
        · exact h
        · simp [hm]
  | none =>
      rw [if_neg (by simp [hm])]
      rw [alookup_append]
      cases hn : alookup t n with
      | some v => simp
      | none =>
          by_cases hnm : n = m
          · subst hnm; simp [alookup]
          · simp [alookup, hnm]

theorem foldl_stepName_lookup_isSome (names : List String) :
    ∀ (t : List (String × Nat)) (n : String),
      (alookup (names.foldl stepName t) n).isSome ↔
        (alookup t n).isSome ∨ n ∈ names := by
  induction names with
  | nil => simp
  | cons m rest ih =>
      intro t n
      rw [List.foldl_cons, ih, stepName_lookup_isSome]
      simp only [List.mem_cons]
      tauto

theorem foldl_stepName_snd (names : List String) :
    ∀ t : List (String × Nat), t.map Prod.snd = List.range t.length →
      (names.foldl stepName t).map Prod.snd =
        List.range (names.foldl stepName t).length := by
  induction names with
  | nil => intro t h; simpa using h
  | cons m rest ih =>
      intro t h
      rw [List.foldl_cons]
      refine ih _ ?_
      unfold stepName
      cases hm : alookup t m with
      | some v =>
          rw [if_pos (by simp [hm])]
          exact h
      | none =>
          rw [if_neg (by simp [hm])]
          rw [List.map_append, List.length_append, h]
          simp [List.range_succ]

theorem declare_variable_spec (s : BState) (name : String)
    (h : s.nextIdx = s.vars.length) :
    (declare_variable s name).1.vars = stepName s.vars name ∧
    (declare_variable s name).1.nextIdx =
      (declare_variable s name).1.vars.length ∧
    (declare_variable s name).1.nextBlock = s.nextBlock ∧
    (declare_variable s name).1.nextValue = s.nextValue ∧
    (declare_variable s name).1.ebbParams = s.ebbParams ∧
    (declare_variable s name).1.funcs = s.funcs ∧
    ∃ Δ, (declare_variable s name).1.trace = s.trace ++ Δ ∧
      ∀ ev ∈ Δ, ∃ i, ev = Event.declareVar i := by
  cases hm : alookup s.vars name with
  | some v =>
      have hc : (alookup s.vars name).isSome = true := by simp [hm]
      refine ⟨?_, ?_, ?_, ?_, ?_, ?_, [], ?_, by simp⟩ <;>
        simp [declare_variable, stepName, hc, h]
  | none =>
      have hc : (alookup s.vars name).isSome = false := by simp [hm]
      refine ⟨?_, ?_, ?_, ?_, ?_, ?_, [.declareVar s.vars.length], ?_, ?_⟩
      · simp [declare_variable, stepName, hc, h]
      · simp [declare_variable, hc, h, List.length_append]
      · simp [declare_variable, hc]
      · simp [declare_variable, hc]
      · simp [declare_variable, hc]
      · simp [declare_variable, hc]
      · simp [declare_variable, hc, h]
      · rintro ev hev
        simp only [List.mem_singleton] at hev
        subst hev
        exact ⟨_, rfl⟩

theorem declareParams_spec :
    ∀ (ps : List (String × Nat)) (s : BState),
      s.nextIdx = s.vars.length →
      (declareParams ps s).vars =
        (ps.map Prod.fst).foldl stepName s.vars ∧
      (declareParams ps s).nextIdx = (declareParams ps s).vars.length ∧
      (declareParams ps s).nextBlock = s.nextBlock ∧
      (declareParams ps s).nextValue = s.nextValue ∧
      (declareParams ps s).ebbParams = s.ebbParams ∧
      (declareParams ps s).funcs = s.funcs ∧
      ∃ Δ, (declareParams ps s).trace = s.trace ++ Δ ∧
        ∀ ev ∈ Δ, isDeclOrDef ev := by
  intro ps
  induction ps with
  | nil =>
      intro s h
      refine ⟨by simp [declareParams], by simpa [declareParams] using h,
        by simp [declareParams], by simp [declareParams],
        by simp [declareParams], by simp [declareParams], [],
        by simp [declareParams], by simp⟩
  | cons p rest ih =>
      intro s h
      obtain ⟨name, val⟩ := p
      obtain ⟨hv, hi, hb, hnv, hp, hf, Δ0, ht, hd⟩ :=
        declare_variable_spec s name h
      rw [declareParams]
      obtain ⟨hv', hi', hb', hnv', hp', hf', Δ1, ht', hd'⟩ :=
        ih (emit (declare_variable s name).1
          (.defVar (declare_variable s name).2 val)) (by simpa using hi)
      refine ⟨?_, hi', ?_, ?_, ?_, ?_, ?_⟩
      · rw [hv']
        simp [hv]
      · rw [hb']; simpa using hb
      · rw [hnv']; simpa using hnv
      · rw [hp']; simpa using hp
      · rw [hf']; simpa using hf
      · refine ⟨Δ0 ++ [.defVar (declare_variable s name).2 val] ++ Δ1, ?_, ?_⟩
        · rw [ht']
          simp [ht, List.append_assoc]
        · intro ev hev
          rcases List.mem_append.mp hev with hev | hev
          · rcases List.mem_append.mp hev with hev | hev
            · obtain ⟨i, rfl⟩ := hd ev hev
              exact Or.inl ⟨i, rfl⟩
            · simp only [List.mem_singleton] at hev
              subst hev
              exact Or.inr ⟨_, _, rfl⟩
          · exact hd' ev hev

/-- The conclusion of the statement-walk lemma for a single statement. -/
def WalkOK (e : Expr) : Prop :=
  ∀ s : BState, s.nextIdx = s.vars.length →
    (declare_variables_in_stmt s e).vars =
      (stmtAssignTargets e).foldl stepName s.vars ∧
    (declare_variables_in_stmt s e).nextIdx =
      (declare_variables_in_stmt s e).vars.length ∧
    (declare_variables_in_stmt s e).nextBlock = s.nextBlock ∧
    (declare_variables_in_stmt s e).nextValue = s.nextValue ∧
    (declare_variables_in_stmt s e).ebbParams = s.ebbParams ∧
    (declare_variables_in_stmt s e).funcs = s.funcs ∧
    ∃ Δ, (declare_variables_in_stmt s e).trace = s.trace ++ Δ ∧
      ∀ ev ∈ Δ, ∃ i, ev = Event.declareVar i

theorem walkListOK {l : List Expr} (hl : ∀ e ∈ l, WalkOK e) :
    ∀ s : BState, s.nextIdx = s.vars.length →
      (declStmtList s l).vars =
        (stmtAssignTargetsList l).foldl stepName s.vars ∧
      (declStmtList s l).nextIdx = (declStmtList s l).vars.length ∧
      (declStmtList s l).nextBlock = s.nextBlock ∧
      (declStmtList s l).nextValue = s.nextValue ∧
      (declStmtList s l).ebbParams = s.ebbParams ∧
      (declStmtList s l).funcs = s.funcs ∧
      ∃ Δ, (declStmtList s l).trace = s.trace ++ Δ ∧
        ∀ ev ∈ Δ, ∃ i, ev = Event.declareVar i := by
  induction l with
  | nil =>
      intro s h
      refine ⟨by simp [declStmtList, stmtAssignTargetsList],
        by simpa [declStmtList] using h, by simp [declStmtList],
        by simp [declStmtList], by simp [declStmtList],
        by simp [declStmtList], [], by simp [declStmtList], by simp⟩
  | cons e rest ih =>
      intro s h
      rw [declStmtList]
      obtain ⟨hv, hi, hb, hnv, hp, hf, Δ0, ht, hd⟩ := hl e (by simp) s h
      obtain ⟨hv', hi', hb', hnv', hp', hf', Δ1, ht', hd'⟩ :=
        ih (fun e' he' => hl e' (by simp [he'])) (declare_variables_in_stmt s e) hi
      refine ⟨?_, hi', by rw [hb', hb], by rw [hnv', hnv], by rw [hp', hp],
        by rw [hf', hf], Δ0 ++ Δ1, ?_, ?_⟩
      · rw [hv', hv, stmtAssignTargetsList, List.foldl_append]
      · rw [ht', ht, List.append_assoc]
      · intro ev hev
        rcases List.mem_append.mp hev with hev | hev
        · exact hd ev hev
        · exact hd' ev hev

theorem walkOKAux : ∀ (N : Nat) (e : Expr), sizeOf e ≤ N → WalkOK e := by
  intro N
  induction N with
  | zero =>
      intro e he
      exact absurd he (by cases e <;> simp <;> omega)
  | succ N ih =>
    intro e he
    have ihe : ∀ e' : Expr, sizeOf e' < sizeOf e → WalkOK e' := fun e' h' =>
      ih e' (by omega)
    intro s h
    cases e with
    | Assign name e =>
        obtain ⟨hv, hi, hb, hnv, hp, hf, Δ0, ht, hd⟩ :=
          declare_variable_spec s name h
        exact ⟨by simpa using hv, hi, hb, hnv, hp, hf, Δ0, ht, hd⟩
    | IfElse cond thenBody elseBody =>
        simp only [dvs_IfElse]
        have hthen : ∀ e' ∈ thenBody, WalkOK e' := fun e' he' =>
          ihe e' (lt_trans (List.sizeOf_lt_of_mem he') (by simp <;> omega))
        have helse : ∀ e' ∈ elseBody, WalkOK e' := fun e' he' =>
          ihe e' (lt_trans (List.sizeOf_lt_of_mem he') (by simp <;> omega))
        obtain ⟨hv, hi, hb, hnv, hp, hf, Δ0, ht, hd⟩ := walkListOK hthen s h
        obtain ⟨hv', hi', hb', hnv', hp', hf', Δ1, ht', hd'⟩ :=
          walkListOK helse (declStmtList s thenBody) hi
        refine ⟨?_, hi', by rw [hb', hb], by rw [hnv', hnv], by rw [hp', hp],
          by rw [hf', hf], Δ0 ++ Δ1, ?_, ?_⟩
        · rw [hv', hv, stmtAssignTargets, List.foldl_append]
        · rw [ht', ht, List.append_assoc]
        · intro ev hev
          rcases List.mem_append.mp hev with hev | hev
          · exact hd ev hev
          · exact hd' ev hev
    | WhileLoop cond body =>
        simp only [dvs_WhileLoop]
        have hbody : ∀ e' ∈ body, WalkOK e' := fun e' he' =>
          ihe e' (lt_trans (List.sizeOf_lt_of_mem he') (by simp <;> omega))
        obtain ⟨hv, hi, hb, hnv, hp, hf, Δ0, ht, hd⟩ := walkListOK hbody s h
        exact ⟨by simpa [stmtAssignTargets] using hv, hi, hb, hnv, hp, hf,
          Δ0, ht, hd⟩
    | Literal text =>
        exact ⟨by simp, h, rfl, rfl, rfl, rfl, [], by simp, by simp⟩
    | Identifier name =>
        exact ⟨by simp, h, rfl, rfl, rfl, rfl, [], by simp, by simp⟩
    | Eq a b =>
        exact ⟨by simp, h, rfl, rfl, rfl, rfl, [], by simp, by simp⟩
    | Ne a b =>
        exact ⟨by simp, h, rfl, rfl, rfl, rfl, [], by simp, by simp⟩
    | Lt a b =>
        exact ⟨by simp, h, rfl, rfl, rfl, rfl, [], by simp, by simp⟩
    | Le a b =>
        exact ⟨by simp, h, rfl, rfl, rfl, rfl, [], by simp, by simp⟩
    | Gt a b =>
        exact ⟨by simp, h, rfl, rfl, rfl, rfl, [], by simp, by simp⟩
    | Ge a b =>
        exact ⟨by simp, h, rfl, rfl, rfl, rfl, [], by simp, by simp⟩
    | Add a b =>
        exact ⟨by simp, h, rfl, rfl, rfl, rfl, [], by simp, by simp⟩
    | Sub a b =>
        exact ⟨by simp, h, rfl, rfl, rfl, rfl, [], by simp, by simp⟩
    | Mul a b =>
        exact ⟨by simp, h, rfl, rfl, rfl, rfl, [], by simp, by simp⟩
    | Div a b =>
        exact ⟨by simp, h, rfl, rfl, rfl, rfl, [], by simp, by simp⟩
    | Call name args =>
        exact ⟨by simp, h, rfl, rfl, rfl, rfl, [], by simp, by simp⟩

theorem walkOK (e : Expr) : WalkOK e := walkOKAux (sizeOf e) e (le_refl _)

theorem declare_variables_eq (s : BState) (pvals : List Nat)
    (params : List String) (ret : String) (stmts : List Expr) :
    declare_variables s pvals params ret stmts =
      declStmtList
        (emit (declare_variable
            (iconstIns (declareParams (params.zip pvals) s) 0).2 ret).1
          (.defVar (declare_variable
            (iconstIns (declareParams (params.zip pvals) s) 0).2 ret).2
            (iconstIns (declareParams (params.zip pvals) s) 0).1))
        stmts := rfl

theorem declare_variables_spec (s : BState) (pvals : List Nat)
    (params : List String) (ret : String) (stmts : List Expr)
    (h : s.nextIdx = s.vars.length) :
    (declare_variables s pvals params ret stmts).vars =
      ((params.zip pvals).map Prod.fst ++
        ret :: stmtAssignTargetsList stmts).foldl stepName s.vars ∧
    (declare_variables s pvals params ret stmts).nextBlock = s.nextBlock ∧
    (declare_variables s pvals params ret stmts).nextValue = s.nextValue + 1 ∧
    (declare_variables s pvals params ret stmts).ebbParams = s.ebbParams ∧
    (declare_variables s pvals params ret stmts).funcs = s.funcs ∧
    ∃ Δ1 Δ2, (declare_variables s pvals params ret stmts).trace =
        s.trace ++ Δ1 ++ [.iconst s.nextValue 0] ++ Δ2 ∧
      (∀ ev ∈ Δ1, isDeclOrDef ev) ∧ (∀ ev ∈ Δ2, isDeclOrDef ev) := by
  obtain ⟨hv, hi, hb, hnv, hp, hf, Δa, ht, hda⟩ :=
    declareParams_spec (params.zip pvals) s h
  obtain ⟨hv2, hi2, hb2, hnv2, hp2, hf2, Δb, ht2, hdb⟩ :=
    declare_variable_spec (iconstIns (declareParams (params.zip pvals) s) 0).2
      ret (by simpa using hi)
  obtain ⟨hv3, hi3, hb3, hnv3, hp3, hf3, Δc, ht3, hdc⟩ :=
    walkListOK (fun e _ => walkOK e)
      (emit (declare_variable
          (iconstIns (declareParams (params.zip pvals) s) 0).2 ret).1
        (.defVar (declare_variable
          (iconstIns (declareParams (params.zip pvals) s) 0).2 ret).2
          (iconstIns (declareParams (params.zip pvals) s) 0).1))
      (by simpa using hi2)
  rw [declare_variables_eq]
  refine ⟨?_, ?_, ?_, ?_, ?_, ?_⟩
  · rw [hv3]
    simp only [emit_vars, hv2, iconstIns_vars, hv]
    rw [List.foldl_append, List.foldl_cons]
  · rw [hb3]
    simp only [emit_nextBlock, hb2, iconstIns_nextBlock, hb]
  · rw [hnv3]
    simp only [emit_nextValue, hnv2, iconstIns_nextValue, hnv]
  · rw [hp3]
    simp only [emit_ebbParams, hp2, iconstIns_ebbParams, hp]
  · rw [hf3]
    simp only [emit_funcs, hf2, iconstIns_funcs, hf]
  · refine ⟨Δa, Δb ++ [.defVar (declare_variable
      (iconstIns (declareParams (params.zip pvals) s) 0).2 ret).2
      (iconstIns (declareParams (params.zip pvals) s) 0).1] ++ Δc, ?_, hda, ?_⟩
    · rw [ht3]
      simp only [emit_trace, ht2, iconstIns_trace, iconstIns_fst, ht, hnv]
      simp [List.append_assoc]
    · intro ev hev
      rcases List.mem_append.mp hev with hev | hev
      · rcases List.mem_append.mp hev with hev | hev
        · obtain ⟨i, rfl⟩ := hdb ev hev
          exact Or.inl ⟨i, rfl⟩
        · simp only [List.mem_singleton] at hev
          subst hev
          exact Or.inr ⟨_, _, rfl⟩
      · obtain ⟨i, rfl⟩ := hdc ev hev
        exact Or.inl ⟨i, rfl⟩

/-- The last statement of a nonempty body determines the body's value. -/
theorem translateSeq_last :
    ∀ (pre : List Expr) (last : Expr) (z : Nat) (s : BState) (v : Nat)
      (s' : BState),
      translateSeq (pre ++ [last]) z s = .ok (v, s') →
      ∃ w sQ, translateSeq pre z s = .ok (w, sQ) ∧
        translate_expr last sQ = .ok (v, s') := by
  intro pre
  induction pre with
  | nil =>
      intro last z s v s' h
      rw [List.nil_append, translateSeq] at h
      cases h1 : translate_expr last s with
      | error m => rw [h1] at h; exact absurd h (by simp)
      | ok p =>
          obtain ⟨v1, sQ⟩ := p
          rw [h1] at h
          simp only [translateSeq, Except.ok.injEq, Prod.mk.injEq] at h
          obtain ⟨rfl, rfl⟩ := h
          exact ⟨z, s, by rw [translateSeq], h1⟩
  | cons p pre ih =>
      intro last z s v s' h
      rw [List.cons_append, translateSeq] at h
      cases h1 : translate_expr p s with
      | error m => rw [h1] at h; exact absurd h (by simp)
      | ok q =>
          obtain ⟨w1, t1⟩ := q
          rw [h1] at h
          simp only at h
          obtain ⟨w, sQ, hseq, hlast⟩ := ih last w1 t1 v s' h
          refine ⟨w, sQ, ?_, hlast⟩
          rw [translateSeq, h1]
          simpa using hseq

/-- The statement walk only collects names that are `Assign` targets
somewhere in the function. -/
def WalkSub (e : Expr) : Prop :=
  ∀ n, n ∈ stmtAssignTargets e → n ∈ assignTargetsAll e

theorem walkSubList {l : List Expr} (hl : ∀ e ∈ l, WalkSub e) :
    ∀ n, n ∈ stmtAssignTargetsList l → n ∈ assignTargetsAllList l := by
  induction l with
  | nil => simp [stmtAssignTargetsList, assignTargetsAllList]
  | cons e rest ih =>
      intro n hn
      rw [stmtAssignTargetsList, List.mem_append] at hn
      rw [assignTargetsAllList, List.mem_append]
      rcases hn with h | h
      · exact Or.inl (hl e (by simp) n h)
      · exact Or.inr (ih (fun e' he' => hl e' (by simp [he'])) n h)

theorem walkSubAux : ∀ (N : Nat) (e : Expr), sizeOf e ≤ N → WalkSub e := by
  intro N
  induction N with
  | zero =>
      intro e he
      exact absurd he (by cases e <;> simp <;> omega)
  | succ N ih =>
    intro e he
    have ihe : ∀ e' : Expr, sizeOf e' < sizeOf e → WalkSub e' := fun e' h' =>
      ih e' (by omega)
    intro n hn
    cases e with
    | Assign name e => simp only [assignTargetsAll]; simp at hn; simp [hn]
    | IfElse cond tb eb =>
        simp only [stmtAssignTargets_IfElse, List.mem_append] at hn
        simp only [assignTargetsAll, List.mem_append]
        have htb : ∀ e' ∈ tb, WalkSub e' := fun e' he' =>
          ihe e' (lt_trans (List.sizeOf_lt_of_mem he') (by simp <;> omega))
        have heb : ∀ e' ∈ eb, WalkSub e' := fun e' he' =>
          ihe e' (lt_trans (List.sizeOf_lt_of_mem he') (by simp <;> omega))
        rcases hn with h | h
        · exact Or.inl (Or.inr (walkSubList htb n h))
        · exact Or.inr (walkSubList heb n h)
    | WhileLoop cond body =>
        simp only [stmtAssignTargets_WhileLoop] at hn
        simp only [assignTargetsAll, List.mem_append]
        have hb : ∀ e' ∈ body, WalkSub e' := fun e' he' =>
          ihe e' (lt_trans (List.sizeOf_lt_of_mem he') (by simp <;> omega))
        exact Or.inr (walkSubList hb n hn)
    | Literal text => simp at hn
    | Identifier name => simp at hn
    | Eq a b => simp at hn
    | Ne a b => simp at hn
    | Lt a b => simp at hn
    | Le a b => simp at hn
    | Gt a b => simp at hn
    | Ge a b => simp at hn
    | Add a b => simp at hn
    | Sub a b => simp at hn
    | Mul a b => simp at hn
    | Div a b => simp at hn
    | Call name args => simp at hn

theorem walkSub (e : Expr) : WalkSub e := walkSubAux (sizeOf e) e (le_refl _)

/-! ## Facts about `instrsBeforeDecls` -/

theorem instrsBeforeDecls_noninstr_head :
    ∀ (t1 t2 : List Event), (∀ ev ∈ t1, isInstr ev = false) →
      instrsBeforeDecls (t1 ++ t2) = instrsBeforeDecls t2 := by
  intro t1
  induction t1 with
  | nil => simp
  | cons e t ih =>
      intro t2 h
      rw [List.cons_append, instrsBeforeDecls]
      rw [h e (by simp), Bool.and_false, if_neg (by simp)]
      exact ih t2 (fun ev hev => h ev (by simp [hev]))

theorem instrsBeforeDecls_nodecl :
    ∀ t : List Event, (∀ ev ∈ t, isDeclEv ev = false) →
      instrsBeforeDecls t = [] := by
  intro t
  induction t with
  | nil => simp [instrsBeforeDecls]
  | cons e t ih =>
      intro h
      rw [instrsBeforeDecls]
      have : t.any isDeclEv = false := by
        rw [List.any_eq_false]
        intro ev hev
        simp [h ev (by simp [hev])]
      rw [this, Bool.false_and, if_neg (by simp)]
      exact ih (fun ev hev => h ev (by simp [hev]))

theorem instrsBeforeDecls_nodecl_suffix :
    ∀ (t1 t2 : List Event), (∀ ev ∈ t2, isDeclEv ev = false) →
      instrsBeforeDecls (t1 ++ t2) = instrsBeforeDecls t1 := by
  intro t1
  induction t1 with
  | nil =>
      intro t2 h
      rw [List.nil_append, instrsBeforeDecls_nodecl t2 h, instrsBeforeDecls]
  | cons e t ih =>
      intro t2 h
      rw [List.cons_append, instrsBeforeDecls, instrsBeforeDecls]
      have hany : (t ++ t2).any isDeclEv = t.any isDeclEv := by
        rw [List.any_append]
        cases hta : t.any isDeclEv
        · simp only [Bool.false_or]
          rw [List.any_eq_false]
          intro ev hev
          simp [h ev hev]
        · simp
      rw [hany, ih t2 h]

/-! ## Structure of a function-level `translate` run -/

/-- The builder state after entry-block setup in `translate` (entry block
created, its parameters appended, switched to and sealed). -/
def entrySetup (n : Nat) : BState :=
  emit (emit (appendFnParams (createEbb initState).2 (createEbb initState).1
    n).2 (.switchTo (createEbb initState).1)) (.seal (createEbb initState).1)

/-- The entry block's parameter value handles. -/
def entryParamVals (n : Nat) : List Nat :=
  (appendFnParams (createEbb initState).2 (createEbb initState).1 n).1

@[simp] theorem entrySetup_nextBlock (n : Nat) :
    (entrySetup n).nextBlock = 1 := rfl
@[simp] theorem entrySetup_nextValue (n : Nat) :
    (entrySetup n).nextValue = n := by
  show 0 + n = n
  omega
@[simp] theorem entrySetup_vars (n : Nat) : (entrySetup n).vars = [] := rfl
@[simp] theorem entrySetup_nextIdx (n : Nat) : (entrySetup n).nextIdx = 0 := rfl
@[simp] theorem entrySetup_funcs (n : Nat) : (entrySetup n).funcs = [] := rfl
@[simp] theorem entrySetup_ebbParams (n : Nat) :
    (entrySetup n).ebbParams = [(0, entryParamVals n)] := rfl
@[simp] theorem entrySetup_trace (n : Nat) :
    (entrySetup n).trace = [.createEbb 0, .fnParams 0 (entryParamVals n),
      .switchTo 0, .seal 0] := rfl
@[simp] theorem entryParamVals_length (n : Nat) :
    (entryParamVals n).length = n := by
  simp [entryParamVals]

theorem translate_ok_elim {params : List String} {ret : String}
    {stmts : List Expr} {s' : BState}
    (hok : translate params ret stmts = .ok s') :
    ∃ s4 rv,
      translateStmts stmts (declare_variables (entrySetup params.length)
        (entryParamVals params.length) params ret stmts) = .ok s4 ∧
      alookup s4.vars ret = some rv ∧
      s' = emit (emit { s4 with nextValue := s4.nextValue + 1 }
        (.useVar rv s4.nextValue)) (.ret s4.nextValue) := by
  rw [translate] at hok
  split at hok
  · exact absurd hok (by simp)
  next s4 h1 =>
    split at hok
    · exact absurd hok (by simp)
    next rv h2 =>
      simp only [Except.ok.injEq] at hok
      exact ⟨s4, rv, h1, h2, hok.symm⟩

/-- The state handed to statement translation: variable table as specified,
counters and block-parameter table as set up, and a trace consisting of the
entry-block setup, the declarations, and the single zero-init constant. -/
theorem declared_state (params : List String) (ret : String)
    (stmts : List Expr) :
    (declare_variables (entrySetup params.length)
      (entryParamVals params.length) params ret stmts).vars =
        specVarTable params ret stmts ∧
    (declare_variables (entrySetup params.length)
      (entryParamVals params.length) params ret stmts).nextBlock = 1 ∧
    (declare_variables (entrySetup params.length)
      (entryParamVals params.length) params ret stmts).nextValue =
        params.length + 1 ∧
    (declare_variables (entrySetup params.length)
      (entryParamVals params.length) params ret stmts).ebbParams =
        [(0, entryParamVals params.length)] ∧
    (declare_variables (entrySetup params.length)
      (entryParamVals params.length) params ret stmts).funcs = [] ∧
    ∃ Δ1 Δ2, (declare_variables (entrySetup params.length)
        (entryParamVals params.length) params ret stmts).trace =
        [.createEbb 0, .fnParams 0 (entryParamVals params.length),
          .switchTo 0, .seal 0] ++ Δ1 ++ [.iconst params.length 0] ++ Δ2 ∧
      (∀ ev ∈ Δ1, isDeclOrDef ev) ∧ (∀ ev ∈ Δ2, isDeclOrDef ev) := by
  obtain ⟨hv, hb, hnv, hp, hf, Δ1, Δ2, ht, hd1, hd2⟩ :=
    declare_variables_spec (entrySetup params.length)
      (entryParamVals params.length) params ret stmts (by simp)
  have hzip : (params.zip (entryParamVals params.length)).map Prod.fst =
      params := List.map_fst_zip _ _ (by simp)
  refine ⟨?_, by simpa using hb, by simpa using hnv, by simpa using hp,
    by simpa using hf, Δ1, Δ2, by simpa using ht, hd1, hd2⟩
  rw [hv, hzip]
  simp only [entrySetup_vars]
  rfl

theorem isDeclOrDef_noblock {ev : Event} (h : isDeclOrDef ev) :
    evTarget ev = none ∧ evSeal ev = none ∧ isInstr ev = false := by
  rcases h with ⟨i, rfl⟩ | ⟨i, v, rfl⟩ <;> exact ⟨rfl, rfl, rfl⟩

theorem SealWF_of_noSeal {t : List Event} (h : ∀ ev ∈ t, evSeal ev = none) :
    SealWF t := by
  induction t with
  | nil => exact SealWF_nil
  | cons e rest ih =>
      rw [SealWF_cons]
      refine ⟨fun b hb => ?_, ih (fun ev hev => h ev (by simp [hev]))⟩
      rw [h e (by simp)] at hb
      exact absurd hb (by simp)

theorem parseI32_range {txt : String} {n : Int} (h : parseI32 txt = some n) :
    -(2 ^ 31) ≤ n ∧ n < 2 ^ 31 := by
  unfold parseI32 at h
  split at h
  · exact absurd h (by simp)
  split at h
  · split at h
    · simp only [Option.some.injEq] at h
      subst h
      assumption
    · exact absurd h (by simp)
  · exact absurd h (by simp)


@[simp] theorem cmpDecomp_Literal (t : String) :
    cmpDecomp (.Literal t) = none := rfl
@[simp] theorem cmpDecomp_Identifier (n : String) :
    cmpDecomp (.Identifier n) = none := rfl
@[simp] theorem cmpDecomp_Assign (n : String) (e : Expr) :
    cmpDecomp (.Assign n e) = none := rfl
@[simp] theorem cmpDecomp_Eq (a b : Expr) :
    cmpDecomp (.Eq a b) = some (.Equal, a, b) := rfl
@[simp] theorem cmpDecomp_Ne (a b : Expr) :
    cmpDecomp (.Ne a b) = some (.NotEqual, a, b) := rfl
@[simp] theorem cmpDecomp_Lt (a b : Expr) :
    cmpDecomp (.Lt a b) = some (.SignedLessThan, a, b) := rfl
@[simp] theorem cmpDecomp_Le (a b : Expr) :
    cmpDecomp (.Le a b) = some (.SignedLessThanOrEqual, a, b) := rfl
@[simp] theorem cmpDecomp_Gt (a b : Expr) :
    cmpDecomp (.Gt a b) = some (.SignedGreaterThan, a, b) := rfl
@[simp] theorem cmpDecomp_Ge (a b : Expr) :
    cmpDecomp (.Ge a b) = some (.SignedGreaterThanOrEqual, a, b) := rfl
@[simp] theorem cmpDecomp_Add (a b : Expr) : cmpDecomp (.Add a b) = none := rfl
@[simp] theorem cmpDecomp_Sub (a b : Expr) : cmpDecomp (.Sub a b) = none := rfl
@[simp] theorem cmpDecomp_Mul (a b : Expr) : cmpDecomp (.Mul a b) = none := rfl
@[simp] theorem cmpDecomp_Div (a b : Expr) : cmpDecomp (.Div a b) = none := rfl
@[simp] theorem cmpDecomp_IfElse (c : Expr) (tb eb : List Expr) :
    cmpDecomp (.IfElse c tb eb) = none := rfl
@[simp] theorem cmpDecomp_WhileLoop (c : Expr) (bd : List Expr) :
    cmpDecomp (.WhileLoop c bd) = none := rfl
@[simp] theorem cmpDecomp_Call (f : String) (args : List Expr) :
    cmpDecomp (.Call f args) = none := rfl

/-! ## Claim theorems -/

/-- C4: the variable table assigns dense indices in exactly this order:
parameters in declaration order from 0, then the return variable, then each
statement-walk `Assign` target not already present; re-encountering a known
name assigns no new index.  Stated as agreement of `declare_variables` with
the spec-side `specVarTable`, plus density of the indices. -/
theorem C4_variable_table_order (params : List String) (ret : String)
    (stmts : List Expr) (s : BState) (pvals : List Nat)
    (hv : s.vars = []) (hi : s.nextIdx = 0)
    (hlen : pvals.length = params.length) :
    (declare_variables s pvals params ret stmts).vars =
      specVarTable params ret stmts ∧
    (specVarTable params ret stmts).map Prod.snd =
      List.range (specVarTable params ret stmts).length := by
  obtain ⟨hvv, -, -, -, -, -⟩ :=
    declare_variables_spec s pvals params ret stmts (by rw [hv, hi]; rfl)
  constructor
  · rw [hvv, hv, List.map_fst_zip _ _ (by omega)]
    rfl
  · exact foldl_stepName_snd _ [] (by simp)

/-- C1: a function that reads an identifier which is not a parameter, not
the return variable, and not the target of any `Assign` anywhere in it does
not translate: `translate` aborts with an error, never a default value. -/
theorem C1_undeclared_identifier_error (params : List String) (ret : String)
    (stmts : List Expr) (name : String)
    (hread : name ∈ identReadsList stmts)
    (hp : name ∉ params) (hr : name ≠ ret)
    (ha : name ∉ assignTargetsAllList stmts) :
    ∃ msg, translate params ret stmts = .error msg := by
  cases htr : translate params ret stmts with
  | error msg => exact ⟨msg, rfl⟩
  | ok s' =>
      exfalso
      obtain ⟨s4, rv, h1, -, -⟩ := translate_ok_elim htr
      obtain ⟨-, hreads, -⟩ := stmtsOK (fun e _ => exprOK e) _ s4 h1
      have hsome := hreads name hread
      obtain ⟨hvd, -, -, -, -, -⟩ := declared_state params ret stmts
      rw [hvd] at hsome
      unfold specVarTable specAssignIndices at hsome
      rcases (foldl_stepName_lookup_isSome _ [] name).mp hsome with h | h
      · simp [alookup] at h
      · rw [List.mem_append, List.mem_cons] at h
        rcases h with h | h | h
        · exact hp h
        · exact hr h
        · exact ha (walkSubList (fun e _ => walkSub e) name h)

/-- C9: a `Literal` is parsed as a signed 32-bit integer constant and
lowered to an `iconst` of that value; a literal that does not parse is a
fatal error at the expression level, and any such literal anywhere in the
function aborts the whole compile with an error. -/
theorem C9_literal_parse :
    (∀ (txt : String) (s : BState), parseI32 txt = none →
      translate_expr (.Literal txt) s = .error "invalid literal") ∧
    (∀ (txt : String) (s : BState) (v : Nat) (s' : BState),
      translate_expr (.Literal txt) s = .ok (v, s') →
      ∃ n, parseI32 txt = some n ∧ -(2 ^ 31) ≤ n ∧ n < 2 ^ 31 ∧
        s'.trace = s.trace ++ [.iconst v n]) ∧
    (∀ (params : List String) (ret : String) (stmts : List Expr)
      (txt : String), txt ∈ litsOfList stmts → parseI32 txt = none →
      ∃ msg, translate params ret stmts = .error msg) := by
  refine ⟨?_, ?_, ?_⟩
  · intro txt s hnone
    rw [translate_expr, hnone]
  · intro txt s v s' hok
    rw [translate_expr] at hok
    cases hp : parseI32 txt with
    | none => rw [hp] at hok; exact absurd hok (by simp)
    | some n =>
        rw [hp] at hok
        simp only [Except.ok.injEq, Prod.mk.injEq] at hok
        obtain ⟨h1, h2⟩ := hok
        subst h1
        subst h2
        obtain ⟨hlo, hhi⟩ := parseI32_range hp
        exact ⟨n, rfl, hlo, hhi, by simp⟩
  · intro params ret stmts txt hmem hnone
    cases htr : translate params ret stmts with
    | error msg => exact ⟨msg, rfl⟩
    | ok s' =>
        exfalso
        obtain ⟨s4, rv, h1, -, -⟩ := translate_ok_elim htr
        obtain ⟨-, -, hlits⟩ := stmtsOK (fun e _ => exprOK e) _ s4 h1
        have := hlits txt hmem
        rw [hnone] at this
        exact absurd this (by simp)

theorem divShape {lhs rhs : Expr} {s : BState} {v : Nat} {s' : BState}
    (hok : translate_expr (.Div lhs rhs) s = .ok (v, s')) :
    ∃ Δ l r, s'.trace = s.trace ++ Δ ++ [.binop .udiv v l r] := by
  rw [translate_expr] at hok
  cases h1 : translate_expr lhs s with
  | error m => rw [h1] at hok; exact absurd hok (by simp)
  | ok p =>
      obtain ⟨l, s1⟩ := p
      rw [h1] at hok
      simp only at hok
      cases h2 : translate_expr rhs s1 with
      | error m => rw [h2] at hok; exact absurd hok (by simp)
      | ok q =>
          obtain ⟨r, s2⟩ := q
          rw [h2] at hok
          simp only [Except.ok.injEq, Prod.mk.injEq] at hok
          obtain ⟨h3, h4⟩ := hok
          subst h3
          subst h4
          obtain ⟨⟨D1, hs1⟩, -, -⟩ := exprOK lhs s l s1 h1
          obtain ⟨⟨D2, hs2⟩, -, -⟩ := exprOK rhs s1 r s2 h2
          refine ⟨D1 ++ D2, l, r, ?_⟩
          simp only [emit_trace, hs2.htrace, hs1.htrace, List.append_assoc]

theorem cmpShape {e : Expr} {cc : IntCC} {a b : Expr}
    (hd : cmpDecomp e = some (cc, a, b)) :
    ∀ (s : BState) (v : Nat) (s' : BState), translate_expr e s = .ok (v, s') →
      ∃ Δ c l r, s'.trace = s.trace ++ Δ ++ [.icmp cc c l r, .bint v c] := by
  intro s v s' hok
  cases e with
  | Literal t => exact absurd hd (by simp)
  | Identifier nm => exact absurd hd (by simp)
  | Assign nm e => exact absurd hd (by simp)
  | Add x y => exact absurd hd (by simp)
  | Sub x y => exact absurd hd (by simp)
  | Mul x y => exact absurd hd (by simp)
  | Div x y => exact absurd hd (by simp)
  | IfElse c tb ebb => exact absurd hd (by simp)
  | WhileLoop c bd => exact absurd hd (by simp)
  | Call f args => exact absurd hd (by simp)
  | Eq lhs rhs =>
      rw [cmpDecomp_Eq] at hd
      simp only [Option.some.injEq, Prod.mk.injEq] at hd
      obtain ⟨rfl, rfl, rfl⟩ := hd
      rw [translate_expr] at hok
      cases h1 : translate_expr lhs s with
      | error m => rw [h1] at hok; exact absurd hok (by simp)
      | ok p =>
          obtain ⟨l, s1⟩ := p
          rw [h1] at hok
          simp only at hok
          cases h2 : translate_expr rhs s1 with
          | error m => rw [h2] at hok; exact absurd hok (by simp)
          | ok q =>
              obtain ⟨r, s2⟩ := q
              rw [h2] at hok
              simp only [Except.ok.injEq, Prod.mk.injEq] at hok
              obtain ⟨h3, h4⟩ := hok
              subst h3
              subst h4
              obtain ⟨⟨D1, hs1⟩, -, -⟩ := exprOK lhs s l s1 h1
              obtain ⟨⟨D2, hs2⟩, -, -⟩ := exprOK rhs s1 r s2 h2
              refine ⟨D1 ++ D2, s2.nextValue, l, r, ?_⟩
              simp only [emit_trace, hs2.htrace, hs1.htrace,
                List.append_assoc, List.cons_append, List.nil_append]
  | Ne lhs rhs =>
      rw [cmpDecomp_Ne] at hd
      simp only [Option.some.injEq, Prod.mk.injEq] at hd
      obtain ⟨rfl, rfl, rfl⟩ := hd
      rw [translate_expr] at hok
      cases h1 : translate_expr lhs s with
      | error m => rw [h1] at hok; exact absurd hok (by simp)
      | ok p =>
          obtain ⟨l, s1⟩ := p
          rw [h1] at hok
          simp only at hok
          cases h2 : translate_expr rhs s1 with
          | error m => rw [h2] at hok; exact absurd hok (by simp)
          | ok q =>
              obtain ⟨r, s2⟩ := q
              rw [h2] at hok
              simp only [Except.ok.injEq, Prod.mk.injEq] at hok
              obtain ⟨h3, h4⟩ := hok
              subst h3
              subst h4
              obtain ⟨⟨D1, hs1⟩, -, -⟩ := exprOK lhs s l s1 h1
              obtain ⟨⟨D2, hs2⟩, -, -⟩ := exprOK rhs s1 r s2 h2
              refine ⟨D1 ++ D2, s2.nextValue, l, r, ?_⟩
              simp only [emit_trace, hs2.htrace, hs1.htrace,
                List.append_assoc, List.cons_append, List.nil_append]
  | Lt lhs rhs =>
      rw [cmpDecomp_Lt] at hd
      simp only [Option.some.injEq, Prod.mk.injEq] at hd
      obtain ⟨rfl, rfl, rfl⟩ := hd
      rw [translate_expr] at hok
      cases h1 : translate_expr lhs s with
      | error m => rw [h1] at hok; exact absurd hok (by simp)
      | ok p =>
          obtain ⟨l, s1⟩ := p
          rw [h1] at hok
          simp only at hok
          cases h2 : translate_expr rhs s1 with
          | error m => rw [h2] at hok; exact absurd hok (by simp)
          | ok q =>
              obtain ⟨r, s2⟩ := q
              rw [h2] at hok
              simp only [Except.ok.injEq, Prod.mk.injEq] at hok
              obtain ⟨h3, h4⟩ := hok
              subst h3
              subst h4
              obtain ⟨⟨D1, hs1⟩, -, -⟩ := exprOK lhs s l s1 h1
              obtain ⟨⟨D2, hs2⟩, -, -⟩ := exprOK rhs s1 r s2 h2
              refine ⟨D1 ++ D2, s2.nextValue, l, r, ?_⟩
              simp only [emit_trace, hs2.htrace, hs1.htrace,
                List.append_assoc, List.cons_append, List.nil_append]
  | Le lhs rhs =>
      rw [cmpDecomp_Le] at hd
      simp only [Option.some.injEq, Prod.mk.injEq] at hd
      obtain ⟨rfl, rfl, rfl⟩ := hd
      rw [translate_expr] at hok
      cases h1 : translate_expr lhs s with
      | error m => rw [h1] at hok; exact absurd hok (by simp)
      | ok p =>
          obtain ⟨l, s1⟩ := p
          rw [h1] at hok
          simp only at hok
          cases h2 : translate_expr rhs s1 with
          | error m => rw [h2] at hok; exact absurd hok (by simp)
          | ok q =>
              obtain ⟨r, s2⟩ := q
              rw [h2] at hok
              simp only [Except.ok.injEq, Prod.mk.injEq] at hok
              obtain ⟨h3, h4⟩ := hok
              subst h3
              subst h4
              obtain ⟨⟨D1, hs1⟩, -, -⟩ := exprOK lhs s l s1 h1
              obtain ⟨⟨D2, hs2⟩, -, -⟩ := exprOK rhs s1 r s2 h2
              refine ⟨D1 ++ D2, s2.nextValue, l, r, ?_⟩
              simp only [emit_trace, hs2.htrace, hs1.htrace,
                List.append_assoc, List.cons_append, List.nil_append]
  | Gt lhs rhs =>
      rw [cmpDecomp_Gt] at hd
      simp only [Option.some.injEq, Prod.mk.injEq] at hd
      obtain ⟨rfl, rfl, rfl⟩ := hd
      rw [translate_expr] at hok
      cases h1 : translate_expr lhs s with
      | error m => rw [h1] at hok; exact absurd hok (by simp)
      | ok p =>
          obtain ⟨l, s1⟩ := p
          rw [h1] at hok
          simp only at hok
          cases h2 : translate_expr rhs s1 with
          | error m => rw [h2] at hok; exact absurd hok (by simp)
          | ok q =>
              obtain ⟨r, s2⟩ := q
              rw [h2] at hok
              simp only [Except.ok.injEq, Prod.mk.injEq] at hok
              obtain ⟨h3, h4⟩ := hok
              subst h3
              subst h4
              obtain ⟨⟨D1, hs1⟩, -, -⟩ := exprOK lhs s l s1 h1
              obtain ⟨⟨D2, hs2⟩, -, -⟩ := exprOK rhs s1 r s2 h2
              refine ⟨D1 ++ D2, s2.nextValue, l, r, ?_⟩
              simp only [emit_trace, hs2.htrace, hs1.htrace,
                List.append_assoc, List.cons_append, List.nil_append]
  | Ge lhs rhs =>
      rw [cmpDecomp_Ge] at hd
      simp only [Option.some.injEq, Prod.mk.injEq] at hd
      obtain ⟨rfl, rfl, rfl⟩ := hd
      rw [translate_expr] at hok
      cases h1 : translate_expr lhs s with
      | error m => rw [h1] at hok; exact absurd hok (by simp)
      | ok p =>
          obtain ⟨l, s1⟩ := p
          rw [h1] at hok
          simp only at hok
          cases h2 : translate_expr rhs s1 with
          | error m => rw [h2] at hok; exact absurd hok (by simp)
          | ok q =>
              obtain ⟨r, s2⟩ := q
              rw [h2] at hok
              simp only [Except.ok.injEq, Prod.mk.injEq] at hok
              obtain ⟨h3, h4⟩ := hok
              subst h3
              subst h4
              obtain ⟨⟨D1, hs1⟩, -, -⟩ := exprOK lhs s l s1 h1
              obtain ⟨⟨D2, hs2⟩, -, -⟩ := exprOK rhs s1 r s2 h2
              refine ⟨D1 ++ D2, s2.nextValue, l, r, ?_⟩
              simp only [emit_trace, hs2.htrace, hs1.htrace,
                List.append_assoc, List.cons_append, List.nil_append]

/-- C6: every comparison is lowered to an `icmp` with the constructor's
condition code followed by a `bint` widening its boolean result, and the
32-bit value of a widened boolean is exactly 0 or 1, never anything else. -/
theorem C6_comparison_zero_one :
    (∀ (e : Expr) (cc : IntCC) (a b : Expr) (s : BState) (v : Nat)
      (s' : BState), cmpDecomp e = some (cc, a, b) →
      translate_expr e s = .ok (v, s') →
      ∃ Δ c l r, s'.trace = s.trace ++ Δ ++ [.icmp cc c l r, .bint v c]) ∧
    (∀ (cc : IntCC) (x y : Nat),
      bintSem (icmpSem cc x y) = 0 ∨ bintSem (icmpSem cc x y) = 1) := by
  constructor
  · intro e cc a b s v s' hd hok
    exact cmpShape hd s v s' hok
  · intro cc x y
    cases h : icmpSem cc x y
    · exact Or.inl (by simp [bintSem])
    · exact Or.inr (by simp [bintSem])

/-- C7: `Div` is lowered to the `udiv` opcode, whose semantics is the
quotient of the operands read as unsigned 32-bit integers (for a nonzero
divisor; the result again fits in 32 bits). -/
theorem C7_div_is_unsigned :
    (∀ (lhs rhs : Expr) (s : BState) (v : Nat) (s' : BState),
      translate_expr (.Div lhs rhs) s = .ok (v, s') →
      ∃ Δ l r, s'.trace = s.trace ++ Δ ++ [.binop .udiv v l r]) ∧
    (∀ x y : Nat, x < 2 ^ 32 → y < 2 ^ 32 → y ≠ 0 →
      udivSem x y = x / y ∧ udivSem x y < 2 ^ 32) := by
  constructor
  · intro lhs rhs s v s' hok
    exact divShape hok
  · intro x y hx hy hz
    exact ⟨rfl, lt_of_le_of_lt (Nat.div_le_self x y) hx⟩

/-- C10: `Lt`, `Le`, `Gt` and `Ge` are lowered with the signed condition
codes, whose semantics orders the operands as two's-complement integers
(so comparing the bit pattern of -1 less-than 0 yields 1), while `Div` in
the same translator is lowered as unsigned `udiv`. -/
theorem C10_order_comparisons_signed :
    (∀ (a b : Expr) (s : BState) (v : Nat) (s' : BState),
      translate_expr (.Lt a b) s = .ok (v, s') →
      ∃ Δ c l r, s'.trace = s.trace ++ Δ ++
        [.icmp .SignedLessThan c l r, .bint v c]) ∧
    (∀ (a b : Expr) (s : BState) (v : Nat) (s' : BState),
      translate_expr (.Le a b) s = .ok (v, s') →
      ∃ Δ c l r, s'.trace = s.trace ++ Δ ++
        [.icmp .SignedLessThanOrEqual c l r, .bint v c]) ∧
    (∀ (a b : Expr) (s : BState) (v : Nat) (s' : BState),
      translate_expr (.Gt a b) s = .ok (v, s') →
      ∃ Δ c l r, s'.trace = s.trace ++ Δ ++
        [.icmp .SignedGreaterThan c l r, .bint v c]) ∧
    (∀ (a b : Expr) (s : BState) (v : Nat) (s' : BState),
      translate_expr (.Div a b) s = .ok (v, s') →
      ∃ Δ l r, s'.trace = s.trace ++ Δ ++ [.binop .udiv v l r]) ∧
    (∀ x y : Nat, (bintSem (icmpSem .SignedLessThan x y) = 1 ↔
      toSigned x < toSigned y)) ∧
    (∀ x y : Nat, (bintSem (icmpSem .SignedLessThanOrEqual x y) = 1 ↔
      toSigned x ≤ toSigned y)) ∧
    (∀ x y : Nat, (bintSem (icmpSem .SignedGreaterThan x y) = 1 ↔
      toSigned x > toSigned y)) ∧
    (∀ x y : Nat, (bintSem (icmpSem .SignedGreaterThanOrEqual x y) = 1 ↔
      toSigned x ≥ toSigned y)) ∧
    bintSem (icmpSem .SignedLessThan (2 ^ 32 - 1) 0) = 1 ∧
    (∀ (a b : Expr) (s : BState) (v : Nat) (s' : BState),
      translate_expr (.Ge a b) s = .ok (v, s') →
      ∃ Δ c l r, s'.trace = s.trace ++ Δ ++
        [.icmp .SignedGreaterThanOrEqual c l r, .bint v c]) := by
  refine ⟨?_, ?_, ?_, ?_, ?_, ?_, ?_, ?_, ?_, ?_⟩
  · intro a b s v s' hok
    exact cmpShape (cmpDecomp_Lt a b) s v s' hok
  · intro a b s v s' hok
    exact cmpShape (cmpDecomp_Le a b) s v s' hok
  · intro a b s v s' hok
    exact cmpShape (cmpDecomp_Gt a b) s v s' hok
  · intro a b s v s' hok
    exact divShape hok
  · intro x y
    by_cases h : toSigned x < toSigned y <;> simp [bintSem, icmpSem, h]
  · intro x y
    by_cases h : toSigned x ≤ toSigned y <;> simp [bintSem, icmpSem, h]
  · intro x y
    by_cases h : toSigned x > toSigned y <;> simp [bintSem, icmpSem, h]
  · intro x y
    by_cases h : toSigned x ≥ toSigned y <;> simp [bintSem, icmpSem, h]
  · decide
  · intro a b s v s' hok
    exact cmpShape (cmpDecomp_Ge a b) s v s' hok

/-- C8: translating a `WhileLoop` always returns the value of a freshly
emitted constant 0, whatever the condition and body are, and the backedge
jump back to the header carries no arguments (body values are discarded). -/
theorem C8_while_loop_value_zero (cond : Expr) (body : List Expr)
    (s : BState) (v : Nat) (s' : BState)
    (hok : translate_expr (.WhileLoop cond body) s = .ok (v, s')) :
    ∃ Δ, s'.trace = s.trace ++ Δ ++ [.jump s.nextBlock [],
      .switchTo (s.nextBlock + 1), .seal s.nextBlock,
      .seal (s.nextBlock + 1), .iconst v 0] := by
  rw [translate_expr] at hok
  simp only [createEbb_fst, createEbb_nextBlock] at hok
  split at hok
  · exact absurd hok (by simp)
  next cv s3 h1 =>
    split at hok
    · exact absurd hok (by simp)
    next s5 h2 =>
      simp only [iconstIns_fst, emit_nextValue, Except.ok.injEq,
        Prod.mk.injEq] at hok
      obtain ⟨h3, h4⟩ := hok
      subst h3
      subst h4
      obtain ⟨⟨Dc, hsc⟩, -, -⟩ := exprOK cond _ cv s3 h1
      obtain ⟨⟨Db, hsb⟩, -, -⟩ := stmtsOK (fun e _ => exprOK e) _ s5 h2
      refine ⟨[.createEbb s.nextBlock, .createEbb (s.nextBlock + 1),
        .jump s.nextBlock [], .switchTo s.nextBlock] ++ Dc ++
        [.brz cv (s.nextBlock + 1)] ++ Db, ?_⟩
      have t1 := hsc.htrace
      have t2 := hsb.htrace
      simp only [emit_trace, createEbb_trace, createEbb_nextBlock,
        List.append_assoc] at t1 t2
      simp only [iconstIns_trace, emit_trace, emit_nextValue, t2, t1,
        List.append_assoc, List.cons_append, List.nil_append]

/-- C2: no block is ever sealed before every jump or branch targeting it has
been emitted — over the whole trace of a function-level translation, and
over the trace delta of any single expression's translation (covering the
merge block of every `IfElse` and the header block of every `WhileLoop`). -/
theorem C2_seal_after_all_jumps :
    (∀ (params : List String) (ret : String) (stmts : List Expr)
      (s' : BState), translate params ret stmts = .ok s' →
      sealWFB s'.trace = true) ∧
    (∀ (e : Expr) (s : BState) (v : Nat) (s' : BState),
      translate_expr e s = .ok (v, s') →
      ∃ Δ, s'.trace = s.trace ++ Δ ∧ sealWFB Δ = true) := by
  constructor
  · intro params ret stmts s' hok
    obtain ⟨s4, rv, h1, -, hs'⟩ := translate_ok_elim hok
    obtain ⟨⟨Ds, hstep⟩, -, -⟩ := stmtsOK (fun e _ => exprOK e) _ s4 h1
    obtain ⟨-, hb, -, -, -, Δ1, Δ2, ht, hd1, hd2⟩ :=
      declared_state params ret stmts
    rw [sealWFB_eq_true_iff]
    have htr : s'.trace = [.createEbb 0,
        .fnParams 0 (entryParamVals params.length), .switchTo 0, .seal 0] ++
        ((Δ1 ++ [.iconst params.length 0] ++ Δ2) ++ (Ds ++
        [.useVar rv s4.nextValue, .ret s4.nextValue])) := by
      rw [hs']
      simp only [emit_trace]
      rw [hstep.htrace, ht]
      simp [List.append_assoc]
    rw [htr]
    have hnodecl_tgt : ∀ ev ∈ Δ1 ++ [Event.iconst params.length 0] ++ Δ2,
        evTarget ev = none ∧ evSeal ev = none := by
      intro ev hev
      rcases List.mem_append.mp hev with hev | hev
      · rcases List.mem_append.mp hev with hev | hev
        · have := isDeclOrDef_noblock (hd1 ev hev)
          exact ⟨this.1, this.2.1⟩
        · simp only [List.mem_singleton] at hev
          subst hev
          exact ⟨rfl, rfl⟩
      · have := isDeclOrDef_noblock (hd2 ev hev)
        exact ⟨this.1, this.2.1⟩
    have hDs_lo : ∀ bb, bb < 1 → noTargetIn bb Ds := fun bb hb1 =>
      hstep.noTargetLt (by rw [hb]; exact hb1)
    refine SealWF_append ?_ ?_ ?_
    · simp [SealWF]
    · refine SealWF_append (SealWF_of_noSeal fun ev hev =>
        (hnodecl_tgt ev hev).2) ?_ ?_
      · refine SealWF_append hstep.hseal (by simp [SealWF]) ?_
        intro ev hev bb hbseal
        simp only [noTargetIn, List.mem_cons, List.not_mem_nil, or_false]
        rintro e' (rfl | rfl) <;> simp
      · intro ev hev bb hbseal
        exact absurd hbseal (by simp [(hnodecl_tgt ev hev).2])
    · intro ev hev bb hbseal
      simp only [List.mem_cons, List.not_mem_nil, or_false] at hev
      rcases hev with rfl | rfl | rfl | rfl <;> simp at hbseal
      subst hbseal
      rw [noTargetIn_append]
      constructor
      · intro e' he'
        exact fun hc => by
          have := (hnodecl_tgt e' he').1
          rw [this] at hc
          exact absurd hc (by simp)
      rw [noTargetIn_append]
      refine ⟨hDs_lo 0 (by omega), ?_⟩
      simp [noTargetIn]
  · intro e s v s' hok
    obtain ⟨⟨Δ, hstep⟩, -, -⟩ := exprOK e s v s' hok
    exact ⟨Δ, hstep.htrace, (sealWFB_eq_true_iff Δ).mpr hstep.hseal⟩

/-- C5 fails on the code: compiling even the empty function emits the
return-variable zero-init `iconst` before the return variable (and any
statement-walk target) is declared, so an IR instruction precedes the
completion of the variable table. -/
theorem C5_counterexample :
    translate [] "r" [] = .ok (stOf [] "r" []) ∧
    instrsBeforeDecls (stOf [] "r" []).trace = [.iconst 0 0] :=
  ⟨rfl, rfl⟩

/-- C5 (amended): the only IR instruction that can precede a variable
declaration in a function's trace is the single zero-init `iconst 0` of the
return variable; every other instruction is emitted only after the variable
table is complete. -/
theorem C5_amended_single_preceding_instr (params : List String)
    (ret : String) (stmts : List Expr) (s' : BState)
    (hok : translate params ret stmts = .ok s') :
    instrsBeforeDecls s'.trace = [.iconst params.length 0] ∨
    instrsBeforeDecls s'.trace = [] := by
  obtain ⟨s4, rv, h1, -, hs'⟩ := translate_ok_elim hok
  obtain ⟨⟨Ds, hstep⟩, -, -⟩ := stmtsOK (fun e _ => exprOK e) _ s4 h1
  obtain ⟨-, -, -, -, -, Δ1, Δ2, ht, hd1, hd2⟩ :=
    declared_state params ret stmts
  have htr : s'.trace = (([.createEbb 0,
      .fnParams 0 (entryParamVals params.length), .switchTo 0, .seal 0] ++
      Δ1) ++ (Event.iconst params.length 0 :: Δ2)) ++ (Ds ++
      [.useVar rv s4.nextValue, .ret s4.nextValue]) := by
    rw [hs']
    simp only [emit_trace]
    rw [hstep.htrace, ht]
    simp [List.append_assoc]
  rw [htr]
  rw [instrsBeforeDecls_nodecl_suffix _ _ ?hnd]
  case hnd =>
    intro ev hev
    rcases List.mem_append.mp hev with hev | hev
    · exact hstep.hnodecl ev hev
    · simp only [List.mem_cons, List.not_mem_nil, or_false] at hev
      rcases hev with rfl | rfl <;> rfl
  rw [instrsBeforeDecls_noninstr_head _ _ ?hni]
  case hni =>
    intro ev hev
    rcases List.mem_append.mp hev with hev | hev
    · simp only [List.mem_cons, List.not_mem_nil, or_false] at hev
      rcases hev with rfl | rfl | rfl | rfl <;> rfl
    · exact (isDeclOrDef_noblock (hd1 ev hev)).2.2
  have hΔ2 : instrsBeforeDecls Δ2 = [] := by
    have : Δ2 ++ [] = Δ2 := by simp
    rw [← this, instrsBeforeDecls_noninstr_head _ _
      (fun ev hev => (isDeclOrDef_noblock (hd2 ev hev)).2.2)]
    rw [instrsBeforeDecls]
  rw [instrsBeforeDecls]
  cases hA : Δ2.any isDeclEv
  · rw [Bool.false_and, if_neg (by simp), hΔ2]
    exact Or.inr rfl
  · rw [Bool.true_and, if_pos (by simp [isInstr]), hΔ2]
    exact Or.inl rfl

/-- C3: an `IfElse` expression's translation returns the merge block's
single entry parameter as its result `Value`; the then-branch and the
else-branch each end with a jump into the merge block whose argument is the
last value translated in that branch, and when a branch's body is empty the
argument is a freshly emitted constant 0. -/
theorem C3_ifelse_value (cond : Expr) (thenBody elseBody : List Expr)
    (s : BState) (v : Nat) (s' : BState) (hw : ParamsWF s)
    (hok : translate_expr (.IfElse cond thenBody elseBody) s = .ok (v, s')) :
    ∃ cv s1 a b Δ1 Δ2 Δ3,
      translate_expr cond s = .ok (cv, s1) ∧
      alookup s'.ebbParams (s1.nextBlock + 1) = some [v] ∧
      s'.trace = s.trace ++ (Δ1 ++ (Event.jump (s1.nextBlock + 1) [a] ::
        (Δ2 ++ (Event.jump (s1.nextBlock + 1) [b] :: Δ3)))) ∧
      (thenBody = [] → a = s1.nextValue + 1 ∧ Event.iconst a 0 ∈ Δ1) ∧
      (elseBody = [] → Event.iconst b 0 ∈ Δ2) ∧
      (∀ pre last, thenBody = pre ++ [last] →
        ∃ sQ sR, translate_expr last sQ = .ok (a, sR)) ∧
      (∀ pre last, elseBody = pre ++ [last] →
        ∃ sQ sR, translate_expr last sQ = .ok (b, sR)) := by
  rw [translate_expr] at hok
  simp only [createEbb_fst, createEbb_nextBlock, appendEbbParam_fst,
    iconstIns_fst, emit_nextValue, appendEbbParam_nextValue,
    createEbb_nextValue] at hok
  split at hok
  · exact absurd hok (by simp)
  next cv s1 h1 =>
    split at hok
    · exact absurd hok (by simp)
    next thenReturn s3 h2 =>
      split at hok
      · exact absurd hok (by simp)
      next elseReturn s7 h3 =>
        split at hok
        next phi tail heq4 =>
          simp only [Except.ok.injEq, Prod.mk.injEq] at hok
          obtain ⟨h5, h6⟩ := hok
          subst h5
          subst h6
          obtain ⟨⟨Dc, hsc⟩, -, -⟩ := exprOK cond s cv s1 h1
          obtain ⟨⟨Dt, hst⟩, -, -⟩ :=
            seqOK (fun e _ => exprOK e) _ _ thenReturn s3 h2
          obtain ⟨⟨De, hse⟩, -, -⟩ :=
            seqOK (fun e _ => exprOK e) _ _ elseReturn s7 h3
          have hc2 : s1.nextBlock + 1 + 1 ≤ s3.nextBlock := by
            have := hst.hblk; simpa using this
          have hc3 : s3.nextBlock ≤ s7.nextBlock := by
            have := hse.hblk; simpa using this
          have w1 := hsc.hpwf hw
          have hnone : alookup s1.ebbParams (s1.nextBlock + 1) = none :=
            w1 _ (by omega)
          have hadd : alookup (addParam s1.ebbParams (s1.nextBlock + 1)
              s1.nextValue) (s1.nextBlock + 1) = some [s1.nextValue] :=
            alookup_addParam_self hnone _
          have p2 := hst.hparams (s1.nextBlock + 1)
            (by simpa using (by omega :
              s1.nextBlock + 1 < s1.nextBlock + 1 + 1))
          have p3 := hse.hparams (s1.nextBlock + 1)
            (by simpa using (by omega : s1.nextBlock + 1 < s3.nextBlock))
          simp only [iconstIns_ebbParams, emit_ebbParams,
            appendEbbParam_ebbParams, createEbb_ebbParams,
            createEbb_nextValue, emit_nextValue,
            appendEbbParam_nextValue] at p2 p3
          have hlook : alookup s7.ebbParams (s1.nextBlock + 1) =
              some [s1.nextValue] := by
            rw [p3, p2, hadd]
          have heq4' : alookup s7.ebbParams (s1.nextBlock + 1) =
              some (phi :: tail) := by simpa using heq4
          rw [hlook] at heq4'
          simp only [Option.some.injEq, List.cons.injEq] at heq4'
          obtain ⟨hphi, htail⟩ := heq4'
          refine ⟨cv, s1, thenReturn, elseReturn,
            Dc ++ ([.createEbb s1.nextBlock, .createEbb (s1.nextBlock + 1),
              .appendParam (s1.nextBlock + 1) s1.nextValue,
              .brz cv s1.nextBlock, .iconst (s1.nextValue + 1) 0] ++ Dt),
            [.switchTo s1.nextBlock, .seal s1.nextBlock,
              .iconst s3.nextValue 0] ++ De,
            [.switchTo (s1.nextBlock + 1), .seal (s1.nextBlock + 1)],
            h1, ?_, ?_, ?_, ?_, ?_, ?_⟩
          · simp only [emit_ebbParams]
            rw [hlook, hphi]
          · have t1 := hsc.htrace
            have t2 := hst.htrace
            have t3 := hse.htrace
            simp only [iconstIns_trace, emit_trace, appendEbbParam_trace,
              createEbb_trace, createEbb_nextBlock, createEbb_nextValue,
              appendEbbParam_nextValue, emit_nextValue, iconstIns_nextValue,
              List.append_assoc] at t2 t3
            simp only [emit_trace, t3, t2, t1, List.append_assoc,
              List.cons_append, List.nil_append]
          · intro hemp
            subst hemp
            rw [translateSeq] at h2
            simp only [Except.ok.injEq, Prod.mk.injEq] at h2
            obtain ⟨hth, -⟩ := h2
            subst hth
            exact ⟨rfl, by simp⟩
          · intro hemp
            subst hemp
            rw [translateSeq] at h3
            simp only [Except.ok.injEq, Prod.mk.injEq] at h3
            obtain ⟨hel, -⟩ := h3
            subst hel
            simp
          · intro pre last hsplit
            subst hsplit
            obtain ⟨w, sQ, -, hlast⟩ :=
              translateSeq_last pre last _ _ _ _ h2
            exact ⟨sQ, s3, hlast⟩
          · intro pre last hsplit
            subst hsplit
            obtain ⟨w, sQ, -, hlast⟩ :=
              translateSeq_last pre last _ _ _ _ h3
            exact ⟨sQ, s7, hlast⟩
        · exact absurd hok (by simp)

/-! ## Concrete witnesses for the claim theorems -/

theorem C1_witness :
    "x" ∈ identReadsList [.Identifier "x"] ∧
    "x" ∉ ([] : List String) ∧
    "x" ≠ "r" ∧
    "x" ∉ assignTargetsAllList [.Identifier "x"] ∧
    ∃ msg, translate [] "r" [.Identifier "x"] = .error msg :=
  ⟨by decide, by decide, by decide, by decide,
    C1_undeclared_identifier_error [] "r" [.Identifier "x"] "x"
      (by decide) (by decide) (by decide) (by decide)⟩

theorem C2_witness :
    translate ["a"] "r"
      [.Assign "r" (.IfElse (.Identifier "a") [.Literal "1"] [.Literal "2"])] =
      .ok (stOf ["a"] "r"
        [.Assign "r" (.IfElse (.Identifier "a") [.Literal "1"]
          [.Literal "2"])]) ∧
    sealWFB (stOf ["a"] "r"
      [.Assign "r" (.IfElse (.Identifier "a") [.Literal "1"]
        [.Literal "2"])]).trace = true ∧
    translate_expr (.WhileLoop (.Literal "0") [.Literal "5"]) initState =
      .ok (exprVal (.WhileLoop (.Literal "0") [.Literal "5"]) initState,
        exprSt (.WhileLoop (.Literal "0") [.Literal "5"]) initState) ∧
    ∃ Δ, (exprSt (.WhileLoop (.Literal "0") [.Literal "5"]) initState).trace =
        initState.trace ++ Δ ∧ sealWFB Δ = true :=
  ⟨rfl, C2_seal_after_all_jumps.1 ["a"] "r"
      [.Assign "r" (.IfElse (.Identifier "a") [.Literal "1"] [.Literal "2"])]
      (stOf ["a"] "r" [.Assign "r" (.IfElse (.Identifier "a") [.Literal "1"]
        [.Literal "2"])]) rfl, rfl,
    C2_seal_after_all_jumps.2 (.WhileLoop (.Literal "0") [.Literal "5"])
      initState
      (exprVal (.WhileLoop (.Literal "0") [.Literal "5"]) initState)
      (exprSt (.WhileLoop (.Literal "0") [.Literal "5"]) initState) rfl⟩

theorem C3_witness :
    ParamsWF initState ∧
    translate_expr (.IfElse (.Literal "1") [.Literal "7"] []) initState =
      .ok (exprVal (.IfElse (.Literal "1") [.Literal "7"] []) initState,
        exprSt (.IfElse (.Literal "1") [.Literal "7"] []) initState) ∧
    ∃ cv s1 a b Δ1 Δ2 Δ3,
      translate_expr (.Literal "1") initState = .ok (cv, s1) ∧
      alookup (exprSt (.IfElse (.Literal "1") [.Literal "7"] [])
          initState).ebbParams (s1.nextBlock + 1) =
        some [exprVal (.IfElse (.Literal "1") [.Literal "7"] []) initState] ∧
      (exprSt (.IfElse (.Literal "1") [.Literal "7"] []) initState).trace =
        initState.trace ++ (Δ1 ++ (Event.jump (s1.nextBlock + 1) [a] ::
          (Δ2 ++ (Event.jump (s1.nextBlock + 1) [b] :: Δ3)))) ∧
      ([Expr.Literal "7"] = [] → a = s1.nextValue + 1 ∧
        Event.iconst a 0 ∈ Δ1) ∧
      (([] : List Expr) = [] → Event.iconst b 0 ∈ Δ2) ∧
      (∀ pre last, [Expr.Literal "7"] = pre ++ [last] →
        ∃ sQ sR, translate_expr last sQ = .ok (a, sR)) ∧
      (∀ pre last, ([] : List Expr) = pre ++ [last] →
        ∃ sQ sR, translate_expr last sQ = .ok (b, sR)) :=
  ⟨fun b _ => rfl, rfl,
    C3_ifelse_value (.Literal "1") [.Literal "7"] [] initState
      (exprVal (.IfElse (.Literal "1") [.Literal "7"] []) initState)
      (exprSt (.IfElse (.Literal "1") [.Literal "7"] []) initState)
      (fun b _ => rfl) rfl⟩

theorem C4_witness :
    initState.vars = [] ∧
    initState.nextIdx = 0 ∧
    ([5, 6] : List Nat).length = (["a", "b"] : List String).length ∧
    ((declare_variables initState [5, 6] ["a", "b"] "r"
        [.Assign "x" (.Literal "1"), .WhileLoop (.Literal "0")
          [.Assign "a" (.Literal "2"), .Assign "y" (.Literal "3")]]).vars =
      specVarTable ["a", "b"] "r"
        [.Assign "x" (.Literal "1"), .WhileLoop (.Literal "0")
          [.Assign "a" (.Literal "2"), .Assign "y" (.Literal "3")]] ∧
    (specVarTable ["a", "b"] "r"
        [.Assign "x" (.Literal "1"), .WhileLoop (.Literal "0")
          [.Assign "a" (.Literal "2"), .Assign "y" (.Literal "3")]]).map
        Prod.snd =
      List.range (specVarTable ["a", "b"] "r"
        [.Assign "x" (.Literal "1"), .WhileLoop (.Literal "0")
          [.Assign "a" (.Literal "2"), .Assign "y" (.Literal "3")]]).length) :=
  ⟨rfl, rfl, rfl,
    C4_variable_table_order ["a", "b"] "r"
      [.Assign "x" (.Literal "1"), .WhileLoop (.Literal "0")
        [.Assign "a" (.Literal "2"), .Assign "y" (.Literal "3")]]
      initState [5, 6] rfl rfl rfl⟩

theorem C5_amended_witness :
    translate ["a"] "r" [.Assign "x" (.Literal "1")] =
      .ok (stOf ["a"] "r" [.Assign "x" (.Literal "1")]) ∧
    (instrsBeforeDecls (stOf ["a"] "r"
        [.Assign "x" (.Literal "1")]).trace = [.iconst 1 0] ∨
      instrsBeforeDecls (stOf ["a"] "r"
        [.Assign "x" (.Literal "1")]).trace = []) :=
  ⟨rfl, C5_amended_single_preceding_instr ["a"] "r"
    [.Assign "x" (.Literal "1")]
    (stOf ["a"] "r" [.Assign "x" (.Literal "1")]) rfl⟩

theorem C6_witness :
    cmpDecomp (.Eq (.Literal "1") (.Literal "2")) =
      some (.Equal, .Literal "1", .Literal "2") ∧
    translate_expr (.Eq (.Literal "1") (.Literal "2")) initState =
      .ok (exprVal (.Eq (.Literal "1") (.Literal "2")) initState,
        exprSt (.Eq (.Literal "1") (.Literal "2")) initState) ∧
    (∃ Δ c l r, (exprSt (.Eq (.Literal "1") (.Literal "2")) initState).trace =
      initState.trace ++ Δ ++ [.icmp .Equal c l r,
        .bint (exprVal (.Eq (.Literal "1") (.Literal "2")) initState) c]) ∧
    (bintSem (icmpSem .Equal 3 3) = 0 ∨ bintSem (icmpSem .Equal 3 3) = 1) :=
  ⟨rfl, rfl, C6_comparison_zero_one.1 (.Eq (.Literal "1") (.Literal "2"))
      .Equal (.Literal "1") (.Literal "2") initState
      (exprVal (.Eq (.Literal "1") (.Literal "2")) initState)
      (exprSt (.Eq (.Literal "1") (.Literal "2")) initState) rfl rfl,
    C6_comparison_zero_one.2 .Equal 3 3⟩

theorem C7_witness :
    translate_expr (.Div (.Literal "7") (.Literal "2")) initState =
      .ok (exprVal (.Div (.Literal "7") (.Literal "2")) initState,
        exprSt (.Div (.Literal "7") (.Literal "2")) initState) ∧
    (∃ Δ l r, (exprSt (.Div (.Literal "7") (.Literal "2")) initState).trace =
      initState.trace ++ Δ ++ [.binop .udiv
        (exprVal (.Div (.Literal "7") (.Literal "2")) initState) l r]) ∧
    (7 : Nat) < 2 ^ 32 ∧ (2 : Nat) < 2 ^ 32 ∧ (2 : Nat) ≠ 0 ∧
    (udivSem 7 2 = 7 / 2 ∧ udivSem 7 2 < 2 ^ 32) :=
  ⟨rfl, C7_div_is_unsigned.1 (.Literal "7") (.Literal "2") initState
      (exprVal (.Div (.Literal "7") (.Literal "2")) initState)
      (exprSt (.Div (.Literal "7") (.Literal "2")) initState) rfl,
    by decide, by decide, by decide,
    C7_div_is_unsigned.2 7 2 (by decide) (by decide) (by decide)⟩

theorem C8_witness :
    translate_expr (.WhileLoop (.Literal "0") [.Literal "5"]) initState =
      .ok (exprVal (.WhileLoop (.Literal "0") [.Literal "5"]) initState,
        exprSt (.WhileLoop (.Literal "0") [.Literal "5"]) initState) ∧
    ∃ Δ, (exprSt (.WhileLoop (.Literal "0") [.Literal "5"]) initState).trace =
      initState.trace ++ Δ ++ [.jump initState.nextBlock [],
        .switchTo (initState.nextBlock + 1), .seal initState.nextBlock,
        .seal (initState.nextBlock + 1),
        .iconst (exprVal (.WhileLoop (.Literal "0") [.Literal "5"])
          initState) 0] :=
  ⟨rfl, C8_while_loop_value_zero (.Literal "0") [.Literal "5"] initState
    (exprVal (.WhileLoop (.Literal "0") [.Literal "5"]) initState)
    (exprSt (.WhileLoop (.Literal "0") [.Literal "5"]) initState) rfl⟩

theorem C9_witness :
    (parseI32 "abc" = none ∧
      translate_expr (.Literal "abc") initState = .error "invalid literal") ∧
    (translate_expr (.Literal "42") initState =
      .ok (exprVal (.Literal "42") initState,
        exprSt (.Literal "42") initState) ∧
      ∃ n, parseI32 "42" = some n ∧ -(2 ^ 31) ≤ n ∧ n < 2 ^ 31 ∧
        (exprSt (.Literal "42") initState).trace =
          initState.trace ++ [.iconst (exprVal (.Literal "42") initState) n]) ∧
    ("abc" ∈ litsOfList [.Literal "abc"] ∧ parseI32 "abc" = none ∧
      ∃ msg, translate [] "r" [.Literal "abc"] = .error msg) :=
  ⟨⟨rfl, C9_literal_parse.1 "abc" initState rfl⟩,
    ⟨rfl, C9_literal_parse.2.1 "42" initState
      (exprVal (.Literal "42") initState)
      (exprSt (.Literal "42") initState) rfl⟩,
    ⟨by decide, rfl, C9_literal_parse.2.2 [] "r" [.Literal "abc"] "abc"
      (by decide) rfl⟩⟩

theorem C10_witness :
    translate_expr (.Lt (.Literal "1") (.Literal "2")) initState =
      .ok (exprVal (.Lt (.Literal "1") (.Literal "2")) initState,
        exprSt (.Lt (.Literal "1") (.Literal "2")) initState) ∧
    (∃ Δ c l r, (exprSt (.Lt (.Literal "1") (.Literal "2")) initState).trace =
      initState.trace ++ Δ ++ [.icmp .SignedLessThan c l r,
        .bint (exprVal (.Lt (.Literal "1") (.Literal "2")) initState) c]) ∧
    (bintSem (icmpSem .SignedLessThan 5 9) = 1 ↔ toSigned 5 < toSigned 9) ∧
    bintSem (icmpSem .SignedLessThan (2 ^ 32 - 1) 0) = 1 := by
  obtain ⟨hlt, -, -, -, hsem, -, -, -, hneg, -⟩ :=
    C10_order_comparisons_signed
  exact ⟨rfl, hlt (.Literal "1") (.Literal "2") initState
    (exprVal (.Lt (.Literal "1") (.Literal "2")) initState)
    (exprSt (.Lt (.Literal "1") (.Literal "2")) initState) rfl,
    hsem 5 9, hneg⟩

end JitDemo
